import Mathlib

/-!
# Verification of the reikna/tigger transformation core

Shallow embedding of the parts of the repository that the claims are about:

* `tigger/cluda/vsize.py` — the virtual work-size mapper (`Reikna.Vsize`);
* `tigger/core/transformation.py` — the transformation tree (`Reikna.Transform`).

Machine integers in the source are python (arbitrary-precision) ints, embedded
as `Nat`; python 2 `/` on ints is floor division.  Fallible code (python
`raise`) returns `Option`/`Except`.  Recursions that python performs on the
object graph are given an explicit fuel so that every definition computes by
kernel reduction; the fuel supplied by the wrappers is always sufficient.
-/

namespace Reikna

namespace Vsize

/-- Modelled from the spec: `product` of `tigger.cluda.helpers` is not under
`src/`; the spec writes `∏` for it throughout section 4.5 (python
`reduce(mul, seq, 1)`, a left fold with initial value 1). -/
def product (l : List Nat) : Nat := l.foldl (fun a b => a * b) 1

/-- Modelled from the spec: `min_blocks` of `tigger.cluda.helpers` is not under
`src/`; the glossary defines it as "per-axis ceiling-division of global by
local", i.e. `(n - 1) / b + 1`. -/
def min_blocks (n block : Nat) : Nat := (n - 1) / block + 1

/-- Modelled from the spec: `factors` of `tigger.cluda.helpers` is not under
`src/`; spec 4.5 step 2 iterates "factor pairs `(f, g/f)` of `g`", so
`factors n` lists every pair `(f, n / f)` with `f` a divisor of `n`, in
ascending order of `f`. -/
def factors (n : Nat) : List (Nat × Nat) :=
  (List.range n).filterMap (fun i =>
    if n % (i + 1) = 0 then some (i + 1, n / (i + 1)) else none)

/-- Modelled from the spec: `log2` of `tigger.cluda.helpers` is not under
`src/`; spec 4.5 step 3 uses it as the floor base-2 logarithm
("for `p = 1..log2(max_grid[-1])`").  Written with explicit fuel (`n` halves
each step, so `n` steps suffice) so that it computes by kernel reduction. -/
def log2_go : Nat → Nat → Nat
  | 0, _ => 0
  | fuel + 1, n => if 2 ≤ n then log2_go fuel (n / 2) + 1 else 0

/-- Floor base-2 logarithm (see `log2_go`). -/
def log2 (n : Nat) : Nat := log2_go n n

/-- The factor-selection loop of `get_rearranged_grid_1d` (vsize.py lines
102-105): `for f, div in reversed(fs): if f <= max_grid[0]: break` keeps the
largest factor pair whose first component is at most the bound.  When no pair
satisfies the bound the python loop ends holding the last iterated pair, which
is `(1, g)`; the `none` default reproduces that. -/
def pick_factor (g limit : Nat) : Nat × Nat :=
  match (factors g).reverse.find? (fun p => p.1 ≤ limit) with
  | some p => p
  | none => (1, g)

/-- `VirtualSizes.get_rearranged_grid_1d` (vsize.py lines 91-125), with an
explicit fuel: every recursive call shortens `max_grid` by one, so
`max_grid.length` fuel suffices.  `none` on the empty list models the
`IndexError` python would raise reading `max_grid[0]`.  The python function
returns the row wrapped in a singleton list; we return the row itself and the
callers re-wrap. -/
def rearranged_1d_go : Nat → Nat → List Nat → Option (List Nat)
  | _, _, [] => none
  | 0, _, _ :: _ => none
  | fuel + 1, g, m0 :: rest =>
    if g ≤ m0 then
      some (g :: List.replicate rest.length 1)
    else if m0 = 0 then
      -- "for cases when max_grid was passed from higher dimension methods"
      (rearranged_1d_go fuel g rest).map (fun row => 1 :: row)
    else
      -- "first check if we can split the number"
      if (pick_factor g m0).1 ≠ 1 ∧ (pick_factor g m0).2 ≤ product rest then
        (rearranged_1d_go fuel (pick_factor g m0).2 rest).map
          (fun row => (pick_factor g m0).1 :: row)
      else
        -- "fallback: will have some empty threads"
        match (List.range (log2 ((m0 :: rest).getLastD 0))).find?
            (fun i => min_blocks g (2 ^ (i + 1)) ≤ product ((m0 :: rest).dropLast)) with
        | some i =>
          (rearranged_1d_go fuel (min_blocks g (2 ^ (i + 1))) ((m0 :: rest).dropLast)).map
            (fun row => row ++ [2 ^ (i + 1)])
        | none =>
          -- "fallback 2: couldn't find suitable 2**n factor"
          (rearranged_1d_go fuel (min_blocks g m0) rest).map (fun row => m0 :: row)

/-- `get_rearranged_grid_1d`, returning the single row (see `rearranged_1d_go`). -/
def rearranged_1d (g : Nat) (max_grid : List Nat) : Option (List Nat) :=
  rearranged_1d_go max_grid.length g max_grid

/-- The remaining grid capacity computed by `get_rearranged_grid_2d` (vsize.py
line 64): `[mg / g1d for mg, g1d in zip(max_grid, grid1[0])]`. -/
def grid2_new_max (max_grid row0 : List Nat) : List Nat :=
  (max_grid.zip row0).map (fun p => p.1 / p.2)

/-- `VirtualSizes.get_rearranged_grid_2d` (vsize.py lines 58-71); python 2 `/`
on ints is floor division. -/
def rearranged_2d (g0 g1 : Nat) (max_grid : List Nat) : Option (List (List Nat)) :=
  match rearranged_1d g0 max_grid with
  | none => none
  | some row0 =>
    if g1 ≤ product (grid2_new_max max_grid row0).tail then
      (rearranged_1d g1 (grid2_new_max max_grid row0).tail).map (fun row => [row0, 1 :: row])
    else
      (rearranged_1d g1 (grid2_new_max max_grid row0)).map (fun row => [row0, row])

/-- The remaining grid capacity computed by `get_rearranged_grid_3d` (vsize.py
line 79): `[mg / g1 / g2 for mg, g1, g2 in zip(max_grid, grid1[0], grid1[1])]`.
`grid1[0]` and `grid1[1]` are read with a default that is never used:
`rearranged_2d` always returns exactly two rows. -/
def grid3_new_max (max_grid : List Nat) (rows2 : List (List Nat)) : List Nat :=
  (max_grid.zip ((rows2.getD 0 []).zip (rows2.getD 1 []))).map
    (fun p => p.1 / p.2.1 / p.2.2)

/-- The branch of `get_rearranged_grid_3d` after the 2-D sub-solution (vsize.py
lines 79-89). -/
def rearranged_3d_tail (g2 : Nat) (max_grid : List Nat) (rows2 : List (List Nat)) :
    Option (List (List Nat)) :=
  if 2 < (grid3_new_max max_grid rows2).length ∧
      g2 ≤ product ((grid3_new_max max_grid rows2).drop 2) then
    (rearranged_1d g2 ((grid3_new_max max_grid rows2).drop 2)).map
      (fun row => rows2 ++ [1 :: 1 :: row])
  else if 1 < (grid3_new_max max_grid rows2).length ∧
      g2 ≤ product (grid3_new_max max_grid rows2).tail then
    (rearranged_1d g2 (grid3_new_max max_grid rows2).tail).map
      (fun row => rows2 ++ [1 :: row])
  else
    (rearranged_1d g2 (grid3_new_max max_grid rows2)).map (fun row => rows2 ++ [row])

/-- `VirtualSizes.get_rearranged_grid_3d` (vsize.py lines 73-89). -/
def rearranged_3d (g0 g1 g2 : Nat) (max_grid : List Nat) : Option (List (List Nat)) :=
  match rearranged_2d g0 g1 max_grid with
  | none => none
  | some rows2 => rearranged_3d_tail g2 max_grid rows2

/-- `VirtualSizes.get_rearranged_grid` (vsize.py lines 41-56); `none` models
the `NotImplementedError` for grids that are not 1- to 3-dimensional. -/
def get_rearranged_grid (grid max_grid : List Nat) : Option (List (List Nat)) :=
  match grid with
  | [g] => (rearranged_1d g max_grid).map (fun row => [row])
  | [g0, g1] => rearranged_2d g0 g1 max_grid
  | [g0, g1, g2] => rearranged_3d g0 g1 g2 max_grid
  | _ => none

/-- The device limits consulted by `VirtualSizes` (vsize.py lines 29-48). -/
structure DeviceParams where
  max_grid_sizes : List Nat
  max_work_group_size : Nat
deriving DecidableEq, Repr

/-- The state computed by `VirtualSizes.__init__` (vsize.py lines 9-39). -/
structure VirtualSizes where
  global_size : List Nat
  local_size : List Nat
  naive_bounding_grid : List Nat
  grid_parts : List (List Nat)
  grid : List Nat
  k_local_size : List Nat
  k_global_size : List Nat
deriving DecidableEq, Repr

/-- `self.naive_bounding_grid` (vsize.py lines 26-27): per-axis
`min_blocks(gs, ls)`. -/
def naive_grid (global_size local_size : List Nat) : List Nat :=
  (global_size.zip local_size).map (fun p => min_blocks p.1 p.2)

/-- `self.grid` (vsize.py lines 36-37): axis-wise product of the `grid_parts`
columns.  Rows always have length `gdims` (proved below), so the `getD`
default is never used. -/
def grid_of (parts : List (List Nat)) (gdims : Nat) : List Nat :=
  (List.range gdims).map (fun i => product (parts.map (fun row => row.getD i 1)))

/-- `self.k_local_size` (vsize.py line 38): the local size padded with 1s up to
the number of physical grid dimensions. -/
def pad_local (local_size : List Nat) (gdims : Nat) : List Nat :=
  local_size ++ List.replicate (gdims - local_size.length) 1

/-- `VirtualSizes.__init__` (vsize.py lines 9-39).  `none` models the
`ValueError`s raised by validation and the errors of the rearrangement.
Scalar-to-tuple promotion of the python inputs is left to the caller (sizes
arrive as lists). -/
def mkVirtualSizes (params : DeviceParams) (global_size local_size : List Nat) :
    Option VirtualSizes :=
  if global_size.length ≠ local_size.length then none
  else if 3 < global_size.length then none
  else if params.max_work_group_size < product local_size then none
  else if product params.max_grid_sizes < product (naive_grid global_size local_size) then none
  else
    match get_rearranged_grid (naive_grid global_size local_size) params.max_grid_sizes with
    | none => none
    | some parts =>
      some {
        global_size := global_size
        local_size := local_size
        naive_bounding_grid := naive_grid global_size local_size
        grid_parts := parts
        grid := grid_of parts params.max_grid_sizes.length
        k_local_size := pad_local local_size params.max_grid_sizes.length
        k_global_size :=
          ((pad_local local_size params.max_grid_sizes.length).zip
            (grid_of parts params.max_grid_sizes.length)).map (fun p => p.1 * p.2) }

/-! ### Arithmetic facts about the helpers -/

theorem product_eq_prod (l : List Nat) : product l = l.prod := by
  rw [product, List.prod_eq_foldl]

theorem product_nil : product [] = 1 := rfl

theorem product_cons (a : Nat) (l : List Nat) : product (a :: l) = a * product l := by
  simp [product_eq_prod]

theorem product_append (l1 l2 : List Nat) : product (l1 ++ l2) = product l1 * product l2 := by
  simp [product_eq_prod]

/-- `min_blocks g b * b` covers `g` (the ceiling property). -/
theorem le_min_blocks_mul (g b : Nat) (hb : 0 < b) : g ≤ min_blocks g b * b := by
  rcases Nat.eq_zero_or_pos g with h | h
  · subst h; exact Nat.zero_le _
  · unfold min_blocks
    have h1 : ((g - 1) / b + 1) * b = b * ((g - 1) / b) + b := by ring
    rw [h1]
    have h2 : b * ((g - 1) / b) + (g - 1) % b = g - 1 := Nat.div_add_mod _ _
    have h3 : (g - 1) % b < b := Nat.mod_lt _ hb
    omega

/-- The pair selected by `pick_factor` multiplies back to `g`. -/
theorem pick_factor_mul (g limit : Nat) :
    (pick_factor g limit).1 * (pick_factor g limit).2 = g := by
  unfold pick_factor
  cases hf : (factors g).reverse.find? (fun p => p.1 ≤ limit) with
  | none => exact Nat.one_mul g
  | some p =>
    have hmem : p ∈ (factors g).reverse := List.mem_of_find?_eq_some hf
    rw [List.mem_reverse] at hmem
    unfold factors at hmem
    rw [List.mem_filterMap] at hmem
    obtain ⟨i, _, hi⟩ := hmem
    by_cases hmod : g % (i + 1) = 0
    · rw [if_pos hmod] at hi
      cases hi
      exact Nat.mul_div_cancel' (Nat.dvd_of_mod_eq_zero hmod)
    · rw [if_neg hmod] at hi
      cases hi

/-! ### The rearranged grid: row lengths and row products -/

/-- Key property of the 1-D rearrangement: whenever it succeeds, the produced
row has one entry per physical axis and its product is at least `g` (it can be
strictly larger: the two fallbacks use a ceiling division). -/
theorem rearranged_1d_go_spec :
    ∀ (fuel g : Nat) (mg row : List Nat),
      rearranged_1d_go fuel g mg = some row →
      row.length = mg.length ∧ g ≤ product row := by
  intro fuel
  induction fuel with
  | zero =>
    intro g mg row h
    cases mg <;> simp [rearranged_1d_go] at h
  | succ n ih =>
    intro g mg row h
    cases mg with
    | nil => simp [rearranged_1d_go] at h
    | cons m0 rest =>
      rw [rearranged_1d_go] at h
      by_cases h1 : g ≤ m0
      · rw [if_pos h1] at h
        cases h
        refine ⟨by simp, ?_⟩
        rw [product_cons, product_eq_prod, List.prod_replicate, one_pow, Nat.mul_one]
      · rw [if_neg h1] at h
        by_cases h2 : m0 = 0
        · rw [if_pos h2] at h
          rw [Option.map_eq_some'] at h
          obtain ⟨r, hr, hrow⟩ := h
          obtain ⟨hl, hp⟩ := ih g rest r hr
          subst hrow
          refine ⟨by simp [hl], ?_⟩
          rw [product_cons, Nat.one_mul]
          exact hp
        · rw [if_neg h2] at h
          by_cases h3 : (pick_factor g m0).1 ≠ 1 ∧ (pick_factor g m0).2 ≤ product rest
          · rw [if_pos h3] at h
            rw [Option.map_eq_some'] at h
            obtain ⟨r, hr, hrow⟩ := h
            obtain ⟨hl, hp⟩ := ih _ rest r hr
            subst hrow
            refine ⟨by simp [hl], ?_⟩
            rw [product_cons]
            calc g = (pick_factor g m0).1 * (pick_factor g m0).2 :=
                  (pick_factor_mul g m0).symm
              _ ≤ (pick_factor g m0).1 * product r := Nat.mul_le_mul_left _ hp
          · rw [if_neg h3] at h
            cases hfind : (List.range (log2 ((m0 :: rest).getLastD 0))).find?
                (fun i => min_blocks g (2 ^ (i + 1)) ≤ product ((m0 :: rest).dropLast)) with
            | some i =>
              rw [hfind] at h
              rw [Option.map_eq_some'] at h
              obtain ⟨r, hr, hrow⟩ := h
              obtain ⟨hl, hp⟩ := ih _ _ r hr
              subst hrow
              have hf2 : 0 < 2 ^ (i + 1) := pow_pos (by norm_num) _
              constructor
              · simp only [List.length_append, List.length_cons, List.length_nil, hl,
                  List.length_dropLast, List.length_cons]
                omega
              · rw [product_append, product_cons, product_nil, Nat.mul_one]
                calc g ≤ min_blocks g (2 ^ (i + 1)) * 2 ^ (i + 1) :=
                      le_min_blocks_mul _ _ hf2
                  _ ≤ product r * 2 ^ (i + 1) := Nat.mul_le_mul_right _ hp
            | none =>
              rw [hfind] at h
              rw [Option.map_eq_some'] at h
              obtain ⟨r, hr, hrow⟩ := h
              obtain ⟨hl, hp⟩ := ih _ rest r hr
              subst hrow
              have hm0 : 0 < m0 := Nat.pos_of_ne_zero h2
              refine ⟨by simp [hl], ?_⟩
              rw [product_cons]
              calc g ≤ min_blocks g m0 * m0 := le_min_blocks_mul _ _ hm0
                _ = m0 * min_blocks g m0 := Nat.mul_comm _ _
                _ ≤ m0 * product r := Nat.mul_le_mul_left _ hp

theorem rearranged_1d_spec (g : Nat) (mg row : List Nat)
    (h : rearranged_1d g mg = some row) :
    row.length = mg.length ∧ g ≤ product row :=
  rearranged_1d_go_spec _ g mg row h

theorem rearranged_1d_ne_nil (g : Nat) (mg row : List Nat)
    (h : rearranged_1d g mg = some row) : mg ≠ [] := by
  intro hnil
  subst hnil
  simp [rearranged_1d, rearranged_1d_go] at h

theorem grid2_new_max_length (mg row0 : List Nat) (h : row0.length = mg.length) :
    (grid2_new_max mg row0).length = mg.length := by
  rw [grid2_new_max, List.length_map, List.length_zip mg row0, h]
  exact Nat.min_self _

theorem rearranged_2d_spec (g0 g1 : Nat) (mg : List Nat) (rows : List (List Nat))
    (h : rearranged_2d g0 g1 mg = some rows) :
    ∃ r0 r1, rows = [r0, r1] ∧ r0.length = mg.length ∧ r1.length = mg.length ∧
      g0 ≤ product r0 ∧ g1 ≤ product r1 := by
  unfold rearranged_2d at h
  cases h0 : rearranged_1d g0 mg with
  | none => simp [h0] at h
  | some row0 =>
    simp only [h0] at h
    obtain ⟨hl0, hp0⟩ := rearranged_1d_spec _ _ _ h0
    have hne : mg ≠ [] := rearranged_1d_ne_nil _ _ _ h0
    have hmg1 : 1 ≤ mg.length := by
      cases mg
      · exact absurd rfl hne
      · simp
    have hnm := grid2_new_max_length mg row0 hl0
    by_cases hb : g1 ≤ product (grid2_new_max mg row0).tail
    · rw [if_pos hb] at h
      rw [Option.map_eq_some'] at h
      obtain ⟨r, hr, hrow⟩ := h
      obtain ⟨hl, hp⟩ := rearranged_1d_spec _ _ _ hr
      subst hrow
      refine ⟨row0, 1 :: r, rfl, hl0, ?_, hp0, ?_⟩
      · rw [List.length_cons, hl, List.length_tail, hnm]
        omega
      · rw [product_cons, Nat.one_mul]
        exact hp
    · rw [if_neg hb] at h
      rw [Option.map_eq_some'] at h
      obtain ⟨r, hr, hrow⟩ := h
      obtain ⟨hl, hp⟩ := rearranged_1d_spec _ _ _ hr
      subst hrow
      exact ⟨row0, r, rfl, hl0, by rw [hl, hnm], hp0, hp⟩

theorem grid3_new_max_length (mg : List Nat) (rows2 : List (List Nat))
    (h0 : (rows2.getD 0 []).length = mg.length)
    (h1 : (rows2.getD 1 []).length = mg.length) :
    (grid3_new_max mg rows2).length = mg.length := by
  rw [grid3_new_max, List.length_map, List.length_zip,
    List.length_zip, h0, h1]
  simp

theorem rearranged_3d_spec (g0 g1 g2 : Nat) (mg : List Nat) (rows : List (List Nat))
    (h : rearranged_3d g0 g1 g2 mg = some rows) :
    ∃ r0 r1 r2, rows = [r0, r1, r2] ∧
      r0.length = mg.length ∧ r1.length = mg.length ∧ r2.length = mg.length ∧
      g0 ≤ product r0 ∧ g1 ≤ product r1 ∧ g2 ≤ product r2 := by
  unfold rearranged_3d at h
  cases h2d : rearranged_2d g0 g1 mg with
  | none => simp [h2d] at h
  | some rows2 =>
    simp only [h2d] at h
    obtain ⟨r0, r1, hrows2, hl0, hl1, hp0, hp1⟩ := rearranged_2d_spec _ _ _ _ h2d
    subst hrows2
    have hg0 : ([r0, r1].getD 0 []) = r0 := rfl
    have hg1 : ([r0, r1].getD 1 []) = r1 := rfl
    have hnm : (grid3_new_max mg [r0, r1]).length = mg.length :=
      grid3_new_max_length mg [r0, r1] (by rw [hg0, hl0]) (by rw [hg1, hl1])
    unfold rearranged_3d_tail at h
    by_cases hA : 2 < (grid3_new_max mg [r0, r1]).length ∧
        g2 ≤ product ((grid3_new_max mg [r0, r1]).drop 2)
    · rw [if_pos hA] at h
      rw [Option.map_eq_some'] at h
      obtain ⟨r, hr, hrow⟩ := h
      obtain ⟨hl, hp⟩ := rearranged_1d_spec _ _ _ hr
      subst hrow
      refine ⟨r0, r1, 1 :: 1 :: r, rfl, hl0, hl1, ?_, hp0, hp1, ?_⟩
      · rw [List.length_cons, List.length_cons, hl, List.length_drop, hnm]
        omega
      · rw [product_cons, product_cons, Nat.one_mul, Nat.one_mul]
        exact hp
    · rw [if_neg hA] at h
      by_cases hB : 1 < (grid3_new_max mg [r0, r1]).length ∧
          g2 ≤ product (grid3_new_max mg [r0, r1]).tail
      · rw [if_pos hB] at h
        rw [Option.map_eq_some'] at h
        obtain ⟨r, hr, hrow⟩ := h
        obtain ⟨hl, hp⟩ := rearranged_1d_spec _ _ _ hr
        subst hrow
        refine ⟨r0, r1, 1 :: r, rfl, hl0, hl1, ?_, hp0, hp1, ?_⟩
        · rw [List.length_cons, hl, List.length_tail, hnm]
          omega
        · rw [product_cons, Nat.one_mul]
          exact hp
      · rw [if_neg hB] at h
        rw [Option.map_eq_some'] at h
        obtain ⟨r, hr, hrow⟩ := h
        obtain ⟨hl, hp⟩ := rearranged_1d_spec _ _ _ hr
        subst hrow
        exact ⟨r0, r1, r, rfl, hl0, hl1, by rw [hl, hnm], hp0, hp1, hp⟩

/-- The rearranged grid has one row per logical dimension; every row has one
entry per physical axis, and its product bounds that dimension's input value
from above. -/
theorem get_rearranged_grid_spec (grid mg : List Nat) (parts : List (List Nat))
    (h : get_rearranged_grid grid mg = some parts) :
    parts.length = grid.length ∧
    ∀ i, i < parts.length →
      (parts.getD i []).length = mg.length ∧ grid.getD i 0 ≤ product (parts.getD i []) := by
  match grid with
  | [] => simp [get_rearranged_grid] at h
  | [g] =>
    simp only [get_rearranged_grid, Option.map_eq_some'] at h
    obtain ⟨r, hr, hparts⟩ := h
    obtain ⟨hl, hp⟩ := rearranged_1d_spec _ _ _ hr
    subst hparts
    refine ⟨rfl, ?_⟩
    intro i hi
    simp only [List.length_cons, List.length_nil] at hi
    interval_cases i
    exact ⟨hl, hp⟩
  | [g0, g1] =>
    simp only [get_rearranged_grid] at h
    obtain ⟨r0, r1, hrows, hl0, hl1, hp0, hp1⟩ := rearranged_2d_spec _ _ _ _ h
    subst hrows
    refine ⟨rfl, ?_⟩
    intro i hi
    simp only [List.length_cons, List.length_nil] at hi
    interval_cases i
    · exact ⟨hl0, hp0⟩
    · exact ⟨hl1, hp1⟩
  | [g0, g1, g2] =>
    simp only [get_rearranged_grid] at h
    obtain ⟨r0, r1, r2, hrows, hl0, hl1, hl2, hp0, hp1, hp2⟩ := rearranged_3d_spec _ _ _ _ _ h
    subst hrows
    refine ⟨rfl, ?_⟩
    intro i hi
    simp only [List.length_cons, List.length_nil] at hi
    interval_cases i
    · exact ⟨hl0, hp0⟩
    · exact ⟨hl1, hp1⟩
    · exact ⟨hl2, hp2⟩
  | g0 :: g1 :: g2 :: g3 :: gs => simp [get_rearranged_grid] at h

/-! ### Inversion of the constructor -/

theorem mkVirtualSizes_some (p : DeviceParams) (gs ls : List Nat) (vs : VirtualSizes)
    (h : mkVirtualSizes p gs ls = some vs) :
    gs.length = ls.length ∧
    vs.global_size = gs ∧ vs.local_size = ls ∧
    vs.naive_bounding_grid = naive_grid gs ls ∧
    get_rearranged_grid (naive_grid gs ls) p.max_grid_sizes = some vs.grid_parts ∧
    vs.grid = grid_of vs.grid_parts p.max_grid_sizes.length ∧
    vs.k_local_size = pad_local ls p.max_grid_sizes.length ∧
    vs.k_global_size = (vs.k_local_size.zip vs.grid).map (fun q => q.1 * q.2) := by
  unfold mkVirtualSizes at h
  split at h
  · cases h
  split at h
  · cases h
  split at h
  · cases h
  split at h
  · cases h
  split at h
  · cases h
  case _ hlen _ _ _ parts heq =>
    cases h
    refine ⟨by omega, rfl, rfl, rfl, by rw [heq], rfl, rfl, rfl⟩

/-! ### Products of the launch configuration -/

theorem product_map_getD_range (r : List Nat) :
    (List.range r.length).map (fun i => r.getD i 1) = r := by
  induction r with
  | nil => rfl
  | cons a l ih =>
    rw [List.length_cons, List.range_succ_eq_map, List.map_cons, List.map_map]
    have : ((fun i => (a :: l).getD i 1) ∘ Nat.succ) = fun i => l.getD i 1 := rfl
    rw [this, ih]
    rfl

theorem product_zip_mul (l1 l2 : List Nat) (h : l1.length = l2.length) :
    product ((l1.zip l2).map (fun p => p.1 * p.2)) = product l1 * product l2 := by
  induction l1 generalizing l2 with
  | nil =>
    cases l2
    · rfl
    · simp at h
  | cons a l ih =>
    cases l2 with
    | nil => simp at h
    | cons b l2 =>
      simp only [List.zip_cons_cons, List.map_cons, product_cons]
      rw [ih l2 (by simpa using h)]
      ring

theorem product_map_one (l : List Nat) : product (l.map (fun _ => 1)) = 1 := by
  induction l with
  | nil => rfl
  | cons a t ih => rw [List.map_cons, product_cons, ih]

theorem product_columns (rows : List (List Nat)) (n : Nat)
    (h : ∀ r ∈ rows, r.length = n) :
    product (grid_of rows n) = product (rows.map product) := by
  induction rows with
  | nil =>
    simp only [grid_of, List.map_nil, product_nil]
    exact product_map_one _
  | cons r rest ih =>
    have hr : r.length = n := h r (by simp)
    have hrest : ∀ x ∈ rest, x.length = n := fun x hx => h x (by simp [hx])
    simp only [grid_of, List.map_cons, product_cons] at *
    rw [product_eq_prod, List.prod_map_mul (f := fun i => r.getD i 1)
      (g := fun i => product (rest.map (fun row => row.getD i 1)))]
    rw [← product_eq_prod ((List.range n).map (fun i => r.getD i 1)),
      ← product_eq_prod ((List.range n).map (fun i => product (rest.map (fun row => row.getD i 1))))]
    rw [ih hrest]
    congr 1
    rw [← hr, product_map_getD_range]

theorem product_rows_ge (parts : List (List Nat)) (naive : List Nat)
    (hlen : parts.length = naive.length)
    (hge : ∀ i, i < parts.length → naive.getD i 0 ≤ product (parts.getD i [])) :
    product naive ≤ product (parts.map product) := by
  induction parts generalizing naive with
  | nil =>
    cases naive
    · simp
    · simp at hlen
  | cons r rest ih =>
    cases naive with
    | nil => simp at hlen
    | cons a nrest =>
      simp only [List.map_cons, product_cons]
      have h0 := hge 0 (by simp)
      have hrest := ih nrest (by simpa using hlen)
        (fun i hi => by
          have := hge (i + 1) (by simp; omega)
          simpa using this)
      exact Nat.mul_le_mul (by simpa using h0) hrest

theorem product_pad_local (ls : List Nat) (n : Nat) :
    product (pad_local ls n) = product ls := by
  rw [pad_local, product_append, product_eq_prod (List.replicate _ 1),
    List.prod_replicate, one_pow, Nat.mul_one]

theorem pad_local_length (ls : List Nat) (n : Nat) (h : ls.length ≤ n) :
    (pad_local ls n).length = n := by
  rw [pad_local, List.length_append, List.length_replicate]
  omega

theorem grid_of_length (parts : List (List Nat)) (n : Nat) :
    (grid_of parts n).length = n := by
  rw [grid_of, List.length_map, List.length_range]

theorem getD_grid_of (parts : List (List Nat)) (n i : Nat) (hi : i < n) :
    (grid_of parts n).getD i 0 = product (parts.map (fun row => row.getD i 1)) := by
  have hlen : i < (grid_of parts n).length := by rw [grid_of_length]; exact hi
  rw [List.getD_eq_getElem _ _ hlen]
  simp [grid_of]

theorem getD_zip_mul (l1 l2 : List Nat) (i : Nat)
    (hi : i < ((l1.zip l2).map (fun p => p.1 * p.2)).length) :
    ((l1.zip l2).map (fun p => p.1 * p.2)).getD i 0 = l1.getD i 0 * l2.getD i 0 := by
  have hz : i < (l1.zip l2).length := by simpa using hi
  have h1 : i < l1.length := by
    rw [List.length_zip] at hz
    omega
  have h2 : i < l2.length := by
    rw [List.length_zip] at hz
    omega
  rw [List.getD_eq_getElem _ _ hi, List.getD_eq_getElem _ _ h1, List.getD_eq_getElem _ _ h2]
  simp [List.getElem_zip]

theorem grid_parts_row_length (p : DeviceParams) (gs ls : List Nat) (vs : VirtualSizes)
    (hparts : get_rearranged_grid (naive_grid gs ls) p.max_grid_sizes = some vs.grid_parts) :
    ∀ r ∈ vs.grid_parts, r.length = p.max_grid_sizes.length := by
  obtain ⟨_, hrows⟩ := get_rearranged_grid_spec _ _ _ hparts
  intro r hr
  rw [List.mem_iff_getElem] at hr
  obtain ⟨i, hi, hr⟩ := hr
  have := (hrows i hi).1
  rw [List.getD_eq_getElem _ _ hi, hr] at this
  exact this

/-- C1 (amended).  For every successful construction: `k_local_size` is the
local size padded with 1s up to `len(max_grid_sizes)`; `grid[i]` is the product
of column `i` of `grid_parts`; `k_global_size[i] = k_local_size[i] * grid[i]`,
so each `k_global_size[i]` is a multiple of `k_local_size[i]`; and — provided
the request has no more dimensions than the physical grid
(`len(local_size) ≤ len(max_grid_sizes)`, the amendment forced by
`C1_counterexample`) — the product of `k_global_size` is at least the product
of the naive bounding grid times the product of the local size. -/
theorem C1_launch_configuration (p : DeviceParams) (gs ls : List Nat) (vs : VirtualSizes)
    (h : mkVirtualSizes p gs ls = some vs) :
    vs.k_local_size = ls ++ List.replicate (p.max_grid_sizes.length - ls.length) 1 ∧
    (∀ i, i < p.max_grid_sizes.length →
      vs.grid.getD i 0 = product (vs.grid_parts.map (fun row => row.getD i 1))) ∧
    (∀ i, i < vs.k_global_size.length →
      vs.k_global_size.getD i 0 = vs.k_local_size.getD i 0 * vs.grid.getD i 0) ∧
    (∀ i, vs.k_local_size.getD i 0 ∣ vs.k_global_size.getD i 0) ∧
    (ls.length ≤ p.max_grid_sizes.length →
      product vs.naive_bounding_grid * product vs.local_size ≤ product vs.k_global_size) := by
  obtain ⟨hlen, hgs, hls, hnaive, hparts, hgrid, hklocal, hkglobal⟩ :=
    mkVirtualSizes_some p gs ls vs h
  have hmul : ∀ i, i < vs.k_global_size.length →
      vs.k_global_size.getD i 0 = vs.k_local_size.getD i 0 * vs.grid.getD i 0 := by
    intro i hi
    rw [hkglobal] at hi ⊢
    exact getD_zip_mul _ _ _ hi
  refine ⟨by rw [hklocal]; rfl, ?_, hmul, ?_, ?_⟩
  · intro i hi
    rw [hgrid]
    exact getD_grid_of _ _ _ hi
  · intro i
    by_cases hi : i < vs.k_global_size.length
    · rw [hmul i hi]
      exact dvd_mul_right _ _
    · rw [List.getD_eq_default _ _ (Nat.le_of_not_lt hi)]
      exact dvd_zero _
  · intro hd
    have hkll : vs.k_local_size.length = p.max_grid_sizes.length := by
      rw [hklocal]
      exact pad_local_length _ _ hd
    have hgl : vs.grid.length = p.max_grid_sizes.length := by
      rw [hgrid]
      exact grid_of_length _ _
    have hrowlen := grid_parts_row_length p gs ls vs hparts
    have hcols : product vs.grid = product (vs.grid_parts.map product) := by
      rw [hgrid]
      exact product_columns _ _ hrowlen
    obtain ⟨hplen, hrows⟩ := get_rearranged_grid_spec _ _ _ hparts
    have hge : product (naive_grid gs ls) ≤ product (vs.grid_parts.map product) :=
      product_rows_ge _ _ hplen (fun i hi => (hrows i hi).2)
    calc product vs.naive_bounding_grid * product vs.local_size
        = product vs.local_size * product (naive_grid gs ls) := by
          rw [hnaive, hls, Nat.mul_comm]
      _ ≤ product vs.local_size * product (vs.grid_parts.map product) :=
          Nat.mul_le_mul_left _ hge
      _ = product vs.k_local_size * product vs.grid := by
          rw [hcols, hklocal, product_pad_local, hls]
      _ = product vs.k_global_size := by
          rw [hkglobal, product_zip_mul _ _ (by rw [hkll, hgl])]

/-- C1 counterexample.  On a device exposing only two grid axes
(`max_grid_sizes = (4, 4)`, `max_work_group_size = 8`), the 3-D request
`global = (2, 2, 2)`, `local = (2, 2, 2)` passes every validation check and is
constructed, yet `∏ k_global_size = 4 < 8 = ∏ naive_bounding_grid × ∏
local_size` — the product inequality of the claim fails, because the third
local dimension never reaches the two-axis launch size. -/
theorem C1_counterexample :
    (mkVirtualSizes ⟨[4, 4], 8⟩ [2, 2, 2] [2, 2, 2]).map
        (fun vs => (product vs.k_global_size,
          product vs.naive_bounding_grid * product vs.local_size)) = some (4, 8) ∧
    ¬ ((8 : Nat) ≤ 4) := by decide

/-- The configuration of spec scenario 5 (device `(65535,1,1)`/256, request
`global=(1_000_000,)`, `local=(256,)`), used to witness C1 and C2. -/
def vsExample : VirtualSizes where
  global_size := [1000000]
  local_size := [256]
  naive_bounding_grid := [3907]
  grid_parts := [[3907, 1, 1]]
  grid := [3907, 1, 1]
  k_local_size := [256, 1, 1]
  k_global_size := [1000192, 1, 1]

/-- Witness for C1 (amended) at the configuration of spec scenario 5. -/
theorem C1_witness :
    mkVirtualSizes ⟨[65535, 1, 1], 256⟩ [1000000] [256] = some vsExample ∧
    product vsExample.naive_bounding_grid * product vsExample.local_size ≤
      product vsExample.k_global_size :=
  ⟨by decide,
    (C1_launch_configuration ⟨[65535, 1, 1], 256⟩ [1000000] [256] vsExample
      (by decide)).2.2.2.2 (by decide)⟩

/-- C2 (amended).  Every row of `grid_parts` is a vector of
`len(max_grid_sizes)` integers whose product is *at least* (not exactly) the
corresponding dimension's naive bounding grid; `C2_counterexample` shows the
product can be strictly larger, because the power-of-two fallback of
`get_rearranged_grid_1d` uses a ceiling division. -/
theorem C2_grid_parts (p : DeviceParams) (gs ls : List Nat) (vs : VirtualSizes)
    (h : mkVirtualSizes p gs ls = some vs) :
    vs.grid_parts.length = vs.naive_bounding_grid.length ∧
    ∀ i, i < vs.grid_parts.length →
      (vs.grid_parts.getD i []).length = p.max_grid_sizes.length ∧
      vs.naive_bounding_grid.getD i 0 ≤ product (vs.grid_parts.getD i []) := by
  obtain ⟨hlen, hgs, hls, hnaive, hparts, hgrid, hklocal, hkglobal⟩ :=
    mkVirtualSizes_some p gs ls vs h
  obtain ⟨hplen, hrows⟩ := get_rearranged_grid_spec _ _ _ hparts
  rw [hnaive]
  exact ⟨hplen, hrows⟩

/-- C2 counterexample.  Device `max_grid_sizes = (3, 4)`,
`max_work_group_size = 1`, request `global = (5,)`, `local = (1,)`: the naive
bounding grid is `5` (a prime exceeding the first axis), so the power-of-two
fallback picks `f = 2` and the row becomes `[3, 2]` with product `6 ≠ 5`. -/
theorem C2_counterexample :
    (mkVirtualSizes ⟨[3, 4], 1⟩ [5] [1]).map
        (fun vs => (vs.naive_bounding_grid, vs.grid_parts)) = some ([5], [[3, 2]]) ∧
    product [3, 2] ≠ ([5] : List Nat).getD 0 0 := by decide

/-- Witness for C2 (amended) at the configuration of spec scenario 5. -/
theorem C2_witness :
    mkVirtualSizes ⟨[65535, 1, 1], 256⟩ [1000000] [256] = some vsExample ∧
    (vsExample.grid_parts.length = vsExample.naive_bounding_grid.length ∧
      ∀ i, i < vsExample.grid_parts.length →
        (vsExample.grid_parts.getD i []).length =
          (⟨[65535, 1, 1], 256⟩ : DeviceParams).max_grid_sizes.length ∧
        vsExample.naive_bounding_grid.getD i 0 ≤ product (vsExample.grid_parts.getD i [])) :=
  ⟨by decide,
    C2_grid_parts ⟨[65535, 1, 1], 256⟩ [1000000] [256] vsExample (by decide)⟩

/-- C9 (confirmed).  Device `max_grid_sizes=(65535,1,1)`,
`max_work_group_size=256`, request `global=(1_000_000,)`, `local=(256,)`:
naive bounding grid `3907`, `grid_parts = [[3907,1,1]]`,
`k_global_size = (1_000_192,1,1)`, `k_local_size = (256,1,1)`, and
`1_000_192 - 1_000_000 = 192` threads exceed the logical global size (the
rendered guard, outside the modelled core, skips them). -/
theorem C9_virtual_size_example :
    (mkVirtualSizes ⟨[65535, 1, 1], 256⟩ [1000000] [256]).map
        (fun vs => (vs.naive_bounding_grid, vs.grid_parts, vs.k_global_size, vs.k_local_size)) =
      some ([3907], [[3907, 1, 1]], [1000192, 1, 1], [256, 1, 1]) ∧
    product [1000192, 1, 1] - product [1000000] = 192 := by decide

end Vsize

namespace Transform

/-- `NODE_LOAD = 0`, `NODE_STORE = 1`, `NODE_SCALAR = 2`
(transformation.py lines 200-202). -/
inductive NodeType where
  | load
  | store
  | scalar
deriving DecidableEq, Repr

/-- `ArrayValue` / `ScalarValue` (transformation.py lines 92-163).  The element
type is kept abstract (`D`): `dtypes.normalize_type` and `dtypes.cast` are
numpy helpers declared out of scope by the spec ("numerical-type helpers" are
external collaborators) and are modelled as the identity, so a `D` is always
already normalized.  A scalar's payload is modelled as an opaque integer.
`none` in a field models python `None`. -/
inductive Value (D : Type) where
  | array (shape : Option (List Nat)) (dtype : Option D)
  | scalar (val : Option Int) (dtype : Option D)
deriving DecidableEq, Repr

/-- `is_array` (transformation.py lines 96 and 138). -/
def Value.is_array {D : Type} : Value D → Bool
  | .array _ _ => true
  | .scalar _ _ => false

/-- The `dtype` attribute shared by both value variants. -/
def Value.dtype {D : Type} : Value D → Option D
  | .array _ d => d
  | .scalar _ d => d

/-- The `shape` attribute of an `ArrayValue`; a `ScalarValue` has no such
attribute, and the callers modelled here only read it on arrays. -/
def Value.shapeOpt {D : Type} : Value D → Option (List Nat)
  | .array sh _ => sh
  | .scalar _ _ => none

/-- `fill_with` (transformation.py lines 98-100 and 140-142): copy the other
value's fields.  Copying across variants would read a missing attribute
(python `AttributeError`), modelled as `none`. -/
def Value.fill_with {D : Type} : Value D → Value D → Option (Value D)
  | .array _ _, .array sh dt => some (.array sh dt)
  | .scalar _ _, .scalar v dt => some (.scalar v dt)
  | _, _ => none

/-- `clear` (transformation.py lines 102-104 and 144-146). -/
def Value.clear {D : Type} : Value D → Value D
  | .array _ _ => .array none none
  | .scalar _ _ => .scalar none none

/-- Overwrite the `dtype` field (the assignments in lines 306 and 336). -/
def Value.withDtype {D : Type} : Value D → Option D → Value D
  | .array sh _, d => .array sh d
  | .scalar v _, d => .scalar v d

/-- Overwrite the `shape` field of an array value; python guards the
assignment with `isinstance(child_value, ArrayValue)` (line 343), so a scalar
is returned unchanged. -/
def Value.withShape {D : Type} : Value D → Option (List Nat) → Value D
  | .array _ dt, sh => .array sh dt
  | .scalar v dt, _ => .scalar v dt

/-- `Transformation.__init__` (transformation.py lines 166-197): the slot
counts and the four type-derivation callbacks.  The Mako code template and the
default callbacks (numpy type promotion, out of scope) carry no weight in the
claims; callbacks operate on already-normalized dtypes.  `derive_s_from_lp`
and `derive_l_from_sp` are called with the list of child dtypes and their
result is indexed at 0; `derive_lp_from_s` and `derive_sp_from_l` are called
with the node dtype and return (array dtypes, scalar dtypes). -/
structure Transformation (D : Type) where
  load : Nat
  store : Nat
  parameters : Nat
  derive_s_from_lp : List D → List D := fun _ => []
  derive_lp_from_s : D → List D × List D := fun _ => ([], [])
  derive_l_from_sp : List D → List D := fun _ => []
  derive_sp_from_l : D → List D × List D := fun _ => ([], [])

/-- A tree node (the `AttrDict`s of transformation.py lines 220-231 and
527-539).  The `parent`/`tr_to_parent` back-references are written but never
read by any modelled operation (nodes created by `connect` do not even carry
them) and are omitted. -/
structure Node (D : Type) where
  type : NodeType
  value : Value D
  children : Option (List String) := none
  tr_to_children : Option (Transformation D) := none

/-- `TransformationTree` (transformation.py line 205): the name-to-node dict,
modelled as an association list with dict-style insertion, plus the ordered
base names. -/
structure TransformationTree (D : Type) where
  nodes : List (String × Node D)
  base_names : List String

/-- Dict-style insertion: replace the binding if the key is present, append
otherwise. -/
def dictInsert {D : Type} (m : List (String × Node D)) (k : String) (v : Node D) :
    List (String × Node D) :=
  if (m.lookup k).isSome then m.map (fun p => if p.1 = k then (k, v) else p)
  else m ++ [(k, v)]

/-- `valid_argument_name` (transformation.py lines 88-89): the regex
`^[a-zA-Z_]\w*$` over python 2 byte strings (`\w = [a-zA-Z0-9_]`). -/
def valid_argument_name (s : String) : Bool :=
  match s.toList with
  | [] => false
  | c :: rest => (c.isAlpha || c = '_') && rest.all (fun x => x.isAlpha || x.isDigit || x = '_')

/-- `TransformationTree.__init__` (transformation.py lines 207-231); `none`
models the `ValueError`s for an invalid or repeated argument name. -/
def mkTree (D : Type) [DecidableEq D] (stores loads scalars : List String) :
    Option (TransformationTree D) :=
  if ¬ (stores ++ loads ++ scalars).all valid_argument_name then none
  else if ¬ (stores ++ loads ++ scalars).Nodup then none
  else
    some {
      nodes :=
        stores.map (fun n => (n, { type := NodeType.store, value := Value.array none none })) ++
        loads.map (fun n => (n, { type := NodeType.load, value := Value.array none none })) ++
        scalars.map (fun n => (n, { type := NodeType.scalar, value := Value.scalar none none }))
      base_names := stores ++ loads ++ scalars }

/-- Accumulator of the recursive `visit` of `leaf_signature` (transformation.py
lines 239-268): the visited set and the two output lists. -/
structure SigState where
  visited : List String
  arrays : List String
  scalars : List String
deriving DecidableEq, Repr

/-- The recursive `visit` of `leaf_signature` (transformation.py lines
249-268), with an explicit fuel (structural, so that it computes by kernel
reduction).  `leaf_signature` supplies sufficient fuel (`signature_fuel`,
proved sufficient below): fuel exhaustion leaves the state as is and is
unreachable from the wrapper. -/
def visitGo {D : Type} (t : TransformationTree D) : Nat → List String → SigState → SigState
  | 0, _, st => st
  | _ + 1, [], st => st
  | fuel + 1, n :: rest, st =>
    if n ∈ st.visited then visitGo t fuel rest st
    else
      match t.nodes.lookup n with
      | none =>
        -- "assuming that if we got a name not from the tree, it is a temporary array"
        visitGo t fuel rest
          { visited := n :: st.visited, arrays := st.arrays ++ [n], scalars := st.scalars }
      | some node =>
        match node.children with
        | none =>
          if node.type = NodeType.scalar then
            visitGo t fuel rest
              { visited := n :: st.visited, arrays := st.arrays, scalars := st.scalars ++ [n] }
          else
            visitGo t fuel rest
              { visited := n :: st.visited, arrays := st.arrays ++ [n], scalars := st.scalars }
        | some cs =>
          visitGo t fuel rest
            (visitGo t fuel cs
              { visited := n :: st.visited, arrays := st.arrays, scalars := st.scalars })

/-- One unit of fuel per processed list entry: a node's children list is
entered at most once, so this bound dominates the traversal. -/
def node_weight {D : Type} (nd : Node D) : Nat := 1 + (nd.children.getD []).length

/-- Sufficient fuel for `visitGo` (proved sufficient below). -/
def signature_fuel {D : Type} (t : TransformationTree D) (names : List String) : Nat :=
  names.length + (t.nodes.map (fun p => node_weight p.2)).sum + 1

/-- The pre-filled scalar accumulator of `leaf_signature` (transformation.py
lines 245-246): the base names that are SCALAR nodes, in declaration order. -/
def base_scalar_names {D : Type} (t : TransformationTree D) (base : List String) :
    List String :=
  base.filter (fun n =>
    match t.nodes.lookup n with
    | some nd => nd.type = NodeType.scalar
    | none => false)

/-- `leaf_signature` (transformation.py lines 234-273). -/
def leaf_signature {D : Type} (t : TransformationTree D) (base : List String) :
    List (String × Option (Value D)) :=
  let st := visitGo t (signature_fuel t base) base
    { visited := base_scalar_names t base
      arrays := []
      scalars := base_scalar_names t base }
  (st.arrays ++ st.scalars).map (fun n => (n, (t.nodes.lookup n).map (fun nd => nd.value)))

/-- `has_array_leaf` (transformation.py lines 485-487).  The signature value of
a name outside the tree is python `None` (whose `is_array` would raise), but
such names cannot occur in the default signature used here; absence is treated
as non-array. -/
def has_array_leaf {D : Type} (t : TransformationTree D) (name : String) : Bool :=
  (leaf_signature t t.base_names).any (fun p =>
    p.1 == name && (match p.2 with
      | some v => v.is_array
      | none => false))

/-- The `ValueError`s raised by `connect` (transformation.py lines 489-539),
one constructor per raise site, in source order. -/
inductive ConnectError where
  | badEndpoint (name : String)
  | badName (name : String)
  | outputNeedsOneInput
  | arrayCountMismatch
  | inputNeedsOneOutput
  | paramCountMismatch
  | scalarWhereArray (name : String)
  | existingOutputNode (name : String)
  | arrayWhereScalar (name : String)
deriving DecidableEq, Repr

/-- The `new_array_args` loop of `connect` (transformation.py lines 520-530):
validates reused names and collects the nodes to create.  The tree itself is
untouched (python writes into the local `new_nodes` dict). -/
def buildArrayNodes {D : Type} (t : TransformationTree D) (ptype : NodeType) :
    List String → List (String × Node D) → Except ConnectError (List (String × Node D))
  | [], acc => .ok acc
  | n :: rest, acc =>
    match t.nodes.lookup n with
    | some nd =>
      if nd.type = NodeType.scalar then .error (.scalarWhereArray n)
      else if ptype = NodeType.store then .error (.existingOutputNode n)
      else buildArrayNodes t ptype rest acc
    | none =>
      buildArrayNodes t ptype rest
        (dictInsert acc n { type := ptype, value := Value.array none none })

/-- The `new_scalar_args` loop of `connect` (transformation.py lines 531-539). -/
def buildScalarNodes {D : Type} (t : TransformationTree D) :
    List String → List (String × Node D) → Except ConnectError (List (String × Node D))
  | [], acc => .ok acc
  | n :: rest, acc =>
    match t.nodes.lookup n with
    | some nd =>
      if ¬ (nd.type = NodeType.scalar) then .error (.arrayWhereScalar n)
      else buildScalarNodes t rest acc
    | none =>
      buildScalarNodes t rest
        (dictInsert acc n { type := NodeType.scalar, value := Value.scalar none none })

/-- `connect` (transformation.py lines 489-543).  Python delays every mutation
to the last three statements ("Delay applying changes until the end of the
method, in case we get an error in the process"); the embedding returns the
tree state at method exit together with the raised error, so faithfulness to
the statement order makes every error path return the input tree. -/
def connect {D : Type} (t : TransformationTree D) (tr : Transformation D)
    (array_arg : String) (new_array_args new_scalar_args : List String) :
    TransformationTree D × Option ConnectError :=
  if ¬ has_array_leaf t array_arg then (t, some (.badEndpoint array_arg))
  else
    match (new_array_args ++ new_scalar_args).find? (fun n => ! valid_argument_name n) with
    | some n => (t, some (.badName n))
    | none =>
      match t.nodes.lookup array_arg with
      | none => (t, some (.badEndpoint array_arg))
      | some parent =>
        if parent.type = NodeType.store ∧ 1 < tr.load then (t, some .outputNeedsOneInput)
        else if parent.type = NodeType.store ∧ tr.store ≠ new_array_args.length then
          (t, some .arrayCountMismatch)
        else if parent.type = NodeType.load ∧ 1 < tr.store then (t, some .inputNeedsOneOutput)
        else if parent.type = NodeType.load ∧ tr.load ≠ new_array_args.length then
          (t, some .arrayCountMismatch)
        else if tr.parameters ≠ new_scalar_args.length then (t, some .paramCountMismatch)
        else
          match buildArrayNodes t parent.type new_array_args [] with
          | .error e => (t, some e)
          | .ok acc =>
            match buildScalarNodes t new_scalar_args acc with
            | .error e => (t, some e)
            | .ok new_nodes =>
              ({ t with nodes :=
                  (t.nodes.map (fun p =>
                    if p.1 = array_arg then
                      (p.1, { parent with
                        children := some (new_array_args ++ new_scalar_args)
                        tr_to_children := some tr })
                    else p)) ++ new_nodes }
                , none)

/-! ### Association-list facts -/

theorem lookup_map_replace {D : Type} (nodes : List (String × Node D)) (a n : String)
    (v : Node D) (hne : ¬ n = a) :
    (nodes.map (fun p => if p.1 = a then (p.1, v) else p)).lookup n = nodes.lookup n := by
  induction nodes with
  | nil => rfl
  | cons p tl ih =>
    by_cases hpa : p.1 = a
    · rw [List.map_cons, if_pos hpa]
      have hnp : (n == p.1) = false := by
        rw [beq_eq_false_iff_ne]
        rw [hpa]
        exact hne
      cases p with
      | mk k nd => simp only [List.lookup] at *; rw [hnp]; exact ih
    · rw [List.map_cons, if_neg hpa]
      cases p with
      | mk k nd =>
        simp only [List.lookup]
        cases hnk : n == k
        · exact ih
        · rfl

theorem lookup_append_some {D : Type} (l1 l2 : List (String × Node D)) (n : String)
    (v : Node D) (h : l1.lookup n = some v) : (l1 ++ l2).lookup n = some v := by
  induction l1 with
  | nil => cases h
  | cons p tl ih =>
    cases p with
    | mk k nd =>
      simp only [List.lookup, List.cons_append] at *
      cases hnk : n == k
      · rw [hnk] at h
        exact ih h
      · rw [hnk] at h
        exact h

/-! ### Characterization of `connect` -/

theorem find?_invalid_none_iff (l : List String) :
    l.find? (fun n => ! valid_argument_name n) = none ↔
      ∀ n ∈ l, valid_argument_name n = true := by
  rw [List.find?_eq_none]
  constructor
  · intro h n hn
    simpa using h n hn
  · intro h n hn
    simpa using h n hn

theorem has_array_leaf_lookup {D : Type} (t : TransformationTree D) (a : String)
    (h : has_array_leaf t a = true) : ∃ nd, t.nodes.lookup a = some nd := by
  unfold has_array_leaf at h
  rw [List.any_eq_true] at h
  obtain ⟨p, hp, hcond⟩ := h
  rw [Bool.and_eq_true, beq_iff_eq] at hcond
  obtain ⟨hpa, hval⟩ := hcond
  unfold leaf_signature at hp
  rw [List.mem_map] at hp
  obtain ⟨m, _, hpm⟩ := hp
  subst hpm
  simp only at hpa
  subst hpa
  cases hl : t.nodes.lookup m with
  | none => rw [hl] at hval; simp at hval
  | some nd => exact ⟨nd, rfl⟩

theorem buildArrayNodes_ok_iff {D : Type} (t : TransformationTree D) (ptype : NodeType) :
    ∀ (l : List String) (acc : List (String × Node D)),
      (∃ r, buildArrayNodes t ptype l acc = .ok r) ↔
        ∀ n ∈ l, ∀ nd, t.nodes.lookup n = some nd →
          ¬ nd.type = NodeType.scalar ∧ ¬ ptype = NodeType.store := by
  intro l
  induction l with
  | nil =>
    intro acc
    simp [buildArrayNodes]
  | cons n rest ih =>
    intro acc
    unfold buildArrayNodes
    cases hl : t.nodes.lookup n with
    | none =>
      simp only []
      rw [ih]
      constructor
      · intro h m hm nd hnd
        rcases List.mem_cons.mp hm with rfl | hm2
        · rw [hl] at hnd; cases hnd
        · exact h m hm2 nd hnd
      · intro h m hm nd hnd
        exact h m (List.mem_cons_of_mem _ hm) nd hnd
    | some nd =>
      simp only []
      by_cases hsc : nd.type = NodeType.scalar
      · rw [if_pos hsc]
        constructor
        · rintro ⟨r, hr⟩; cases hr
        · intro h
          exact absurd ((h n (List.mem_cons_self _ _) nd hl).1) (by simp [hsc])
      · rw [if_neg hsc]
        by_cases hst : ptype = NodeType.store
        · rw [if_pos hst]
          constructor
          · rintro ⟨r, hr⟩; cases hr
          · intro h
            exact absurd ((h n (List.mem_cons_self _ _) nd hl).2) (by simp [hst])
        · rw [if_neg hst, ih]
          constructor
          · intro h m hm nd2 hnd2
            rcases List.mem_cons.mp hm with rfl | hm2
            · rw [hl] at hnd2
              cases hnd2
              exact ⟨hsc, hst⟩
            · exact h m hm2 nd2 hnd2
          · intro h m hm nd2 hnd2
            exact h m (List.mem_cons_of_mem _ hm) nd2 hnd2

theorem buildScalarNodes_ok_iff {D : Type} (t : TransformationTree D) :
    ∀ (l : List String) (acc : List (String × Node D)),
      (∃ r, buildScalarNodes t l acc = .ok r) ↔
        ∀ n ∈ l, ∀ nd, t.nodes.lookup n = some nd → nd.type = NodeType.scalar := by
  intro l
  induction l with
  | nil =>
    intro acc
    simp [buildScalarNodes]
  | cons n rest ih =>
    intro acc
    unfold buildScalarNodes
    cases hl : t.nodes.lookup n with
    | none =>
      simp only []
      rw [ih]
      constructor
      · intro h m hm nd hnd
        rcases List.mem_cons.mp hm with rfl | hm2
        · rw [hl] at hnd; cases hnd
        · exact h m hm2 nd hnd
      · intro h m hm nd hnd
        exact h m (List.mem_cons_of_mem _ hm) nd hnd
    | some nd =>
      simp only []
      by_cases hsc : nd.type = NodeType.scalar
      · rw [if_neg (by simpa using hsc), ih]
        constructor
        · intro h m hm nd2 hnd2
          rcases List.mem_cons.mp hm with rfl | hm2
          · rw [hl] at hnd2
            cases hnd2
            exact hsc
          · exact h m hm2 nd2 hnd2
        · intro h m hm nd2 hnd2
          exact h m (List.mem_cons_of_mem _ hm) nd2 hnd2
      · rw [if_pos (by simpa using hsc)]
        constructor
        · rintro ⟨r, hr⟩; cases hr
        · intro h
          exact absurd (h n (List.mem_cons_self _ _) nd hl) hsc

/-- `connect` succeeds exactly when: the endpoint is an array leaf, all new
names are valid, the slot counts satisfy the checks the code actually performs
(`tr.load ≤ 1` for a STORE endpoint, `tr.store ≤ 1` for a LOAD endpoint — not
`== 1`), and every reused name satisfies the code's reuse rules (an array slot
rejects SCALAR nodes and any existing node under a STORE endpoint; a scalar
slot rejects non-SCALAR nodes; the direction of a reused array node is not
checked). -/
theorem connect_snd_none_iff {D : Type} (t : TransformationTree D) (tr : Transformation D)
    (a : String) (naa nsa : List String) :
    (connect t tr a naa nsa).2 = none ↔
      has_array_leaf t a = true ∧
      (∀ n ∈ naa ++ nsa, valid_argument_name n = true) ∧
      ∃ parent, t.nodes.lookup a = some parent ∧
        (parent.type = NodeType.store → tr.load ≤ 1 ∧ tr.store = naa.length) ∧
        (parent.type = NodeType.load → tr.store ≤ 1 ∧ tr.load = naa.length) ∧
        tr.parameters = nsa.length ∧
        (∀ n ∈ naa, ∀ nd, t.nodes.lookup n = some nd →
          ¬ nd.type = NodeType.scalar ∧ ¬ parent.type = NodeType.store) ∧
        (∀ n ∈ nsa, ∀ nd, t.nodes.lookup n = some nd → nd.type = NodeType.scalar) := by
  unfold connect
  by_cases h1 : has_array_leaf t a = true
  case neg =>
    rw [if_pos (by simpa using h1)]
    simp [h1]
  case pos =>
    rw [if_neg (by simpa using h1)]
    cases hfind : (naa ++ nsa).find? (fun n => ! valid_argument_name n) with
    | some n =>
      have hmem := List.mem_of_find?_eq_some hfind
      have hpn : ¬ valid_argument_name n = true := by
        simpa using List.find?_some hfind
      exact iff_of_false (by simp) (fun h => hpn (h.2.1 n hmem))
    | none =>
      have hvalid : ∀ n ∈ naa ++ nsa, valid_argument_name n = true :=
        (find?_invalid_none_iff _).mp hfind
      simp only []
      cases hpl : t.nodes.lookup a with
      | none =>
        refine iff_of_false (by simp) ?_
        rintro ⟨-, -, parent, hp, -⟩
        cases hp
      | some parent =>
        simp only []
        by_cases hc1 : parent.type = NodeType.store ∧ 1 < tr.load
        · rw [if_pos hc1]
          refine iff_of_false (by simp) ?_
          rintro ⟨-, -, q, hq, hst, -⟩
          cases hq
          have := (hst hc1.1).1
          omega
        · rw [if_neg hc1]
          by_cases hc2 : parent.type = NodeType.store ∧ tr.store ≠ naa.length
          · rw [if_pos hc2]
            refine iff_of_false (by simp) ?_
            rintro ⟨-, -, q, hq, hst, -⟩
            cases hq
            exact hc2.2 (hst hc2.1).2
          · rw [if_neg hc2]
            by_cases hc3 : parent.type = NodeType.load ∧ 1 < tr.store
            · rw [if_pos hc3]
              refine iff_of_false (by simp) ?_
              rintro ⟨-, -, q, hq, -, hld, -⟩
              cases hq
              have := (hld hc3.1).1
              omega
            · rw [if_neg hc3]
              by_cases hc4 : parent.type = NodeType.load ∧ tr.load ≠ naa.length
              · rw [if_pos hc4]
                refine iff_of_false (by simp) ?_
                rintro ⟨-, -, q, hq, -, hld, -⟩
                cases hq
                exact hc4.2 (hld hc4.1).2
              · rw [if_neg hc4]
                by_cases hc5 : tr.parameters ≠ nsa.length
                · rw [if_pos hc5]
                  refine iff_of_false (by simp) ?_
                  rintro ⟨-, -, q, hq, -, -, hpar, -⟩
                  exact hc5 hpar
                · rw [if_neg hc5]
                  cases hba : buildArrayNodes t parent.type naa [] with
                  | error e =>
                    refine iff_of_false (by simp) ?_
                    rintro ⟨-, -, q, hq, -, -, -, harr, -⟩
                    cases hq
                    obtain ⟨r, hr⟩ := (buildArrayNodes_ok_iff t parent.type naa []).mpr harr
                    rw [hba] at hr
                    cases hr
                  | ok acc =>
                    simp only []
                    cases hbs : buildScalarNodes t nsa acc with
                    | error e =>
                      refine iff_of_false (by simp) ?_
                      rintro ⟨-, -, q, hq, -, -, -, -, hsc⟩
                      obtain ⟨r, hr⟩ := (buildScalarNodes_ok_iff t nsa acc).mpr hsc
                      rw [hbs] at hr
                      cases hr
                    | ok new_nodes =>
                      simp only []
                      refine iff_of_true (by trivial) ?_
                      refine ⟨h1, hvalid, parent, rfl, ?_, ?_, by omega, ?_, ?_⟩
                      · intro hst
                        constructor
                        · by_contra hload
                          exact hc1 ⟨hst, by omega⟩
                        · by_contra hcount
                          exact hc2 ⟨hst, hcount⟩
                      · intro hld
                        constructor
                        · by_contra hstore
                          exact hc3 ⟨hld, by omega⟩
                        · by_contra hcount
                          exact hc4 ⟨hld, hcount⟩
                      · exact (buildArrayNodes_ok_iff t parent.type naa []).mp ⟨acc, hba⟩
                      · exact (buildScalarNodes_ok_iff t nsa acc).mp ⟨new_nodes, hbs⟩

/-- On success, the resulting node table is the old one with the endpoint
given its children and transformation, followed by the freshly created
nodes. -/
theorem connect_ok_tree {D : Type} (t : TransformationTree D) (tr : Transformation D)
    (a : String) (naa nsa : List String) (t2 : TransformationTree D)
    (h : connect t tr a naa nsa = (t2, none)) :
    ∃ parent new_nodes, t.nodes.lookup a = some parent ∧
      t2.base_names = t.base_names ∧
      t2.nodes = (t.nodes.map (fun p =>
        if p.1 = a then
          (p.1, { parent with
            children := some (naa ++ nsa)
            tr_to_children := some tr })
        else p)) ++ new_nodes := by
  unfold connect at h
  split at h
  · simp at h
  split at h
  · simp at h
  split at h
  · simp at h
  case _ parent hpl =>
    split at h
    · simp at h
    split at h
    · simp at h
    split at h
    · simp at h
    split at h
    · simp at h
    split at h
    · simp at h
    split at h
    · simp at h
    case _ acc hba =>
      split at h
      · simp at h
      case _ new_nodes hbs =>
        cases h
        exact ⟨parent, new_nodes, hpl, rfl, rfl⟩

/-- Whatever the outcome, either `connect` succeeded or the returned tree is
exactly the input tree (every `raise` happens before any mutation). -/
theorem connect_error_shape {D : Type} (t : TransformationTree D) (tr : Transformation D)
    (a : String) (naa nsa : List String) :
    (connect t tr a naa nsa).2 = none ∨ (connect t tr a naa nsa).1 = t := by
  unfold connect
  split
  · right; rfl
  split
  · right; rfl
  split
  · right; rfl
  split
  · right; rfl
  split
  · right; rfl
  split
  · right; rfl
  split
  · right; rfl
  split
  · right; rfl
  split
  · right; rfl
  split
  · right; rfl
  left
  rfl

/-- Existing nodes other than the endpoint are untouched by a successful
`connect`. -/
theorem connect_preserves {D : Type} (t : TransformationTree D) (tr : Transformation D)
    (a : String) (naa nsa : List String)
    (h : (connect t tr a naa nsa).2 = none) (n : String) (hna : ¬ n = a)
    (nd : Node D) (hnd : t.nodes.lookup n = some nd) :
    (connect t tr a naa nsa).1.nodes.lookup n = some nd := by
  rcases hc : connect t tr a naa nsa with ⟨t2, e⟩
  rw [hc] at h
  simp only at h
  subst h
  obtain ⟨parent, new_nodes, hpl, hbase, hnodes⟩ := connect_ok_tree t tr a naa nsa t2 hc
  simp only
  rw [hnodes]
  exact lookup_append_some _ _ _ _ (by rw [lookup_map_replace _ _ _ _ hna]; exact hnd)

/-! ### Fixtures for the `connect` claims -/

/-- The bare tree `TransformationTree(stores=["out"], loads=["in"], scalars=[])`
of spec scenario 1. -/
def sampleTree : TransformationTree Nat where
  nodes := [("out", { type := NodeType.store, value := Value.array none none }),
            ("in", { type := NodeType.load, value := Value.array none none })]
  base_names := ["out", "in"]

/-- The node of the `"in"` endpoint of `sampleTree`. -/
def inNode : Node Nat := { type := NodeType.load, value := Value.array none none }

/-- A 1-in 1-out transformation descriptor (the spec's `identity` shape). -/
def trId : Transformation Nat := { load := 1, store := 1, parameters := 0 }

/-- A descriptor with no inputs: `load = 0`, one output, no parameters. -/
def trLoad0 : Transformation Nat := { load := 0, store := 1, parameters := 0 }

/-- C3 (amended).  A successful `connect` implies: for a STORE endpoint
`tr.load ≤ 1` (not `== 1`: the code only rejects `tr.load > 1`) and
`tr.store == len(new_array_args)`; for a LOAD endpoint `tr.store ≤ 1` (likewise)
and `tr.load == len(new_array_args)`; and always
`tr.parameters == len(new_scalar_args)`.  A descriptor with `tr.load == 0`
connected to a STORE endpoint is accepted, not rejected
(`C3_counterexample`). -/
theorem C3_slot_counts {D : Type} (t : TransformationTree D) (tr : Transformation D)
    (a : String) (naa nsa : List String) (parent : Node D)
    (hp : t.nodes.lookup a = some parent)
    (h : (connect t tr a naa nsa).2 = none) :
    (parent.type = NodeType.store → tr.load ≤ 1 ∧ tr.store = naa.length) ∧
    (parent.type = NodeType.load → tr.store ≤ 1 ∧ tr.load = naa.length) ∧
    tr.parameters = nsa.length := by
  obtain ⟨-, -, q, hq, hst, hld, hpar, -, -⟩ := (connect_snd_none_iff t tr a naa nsa).mp h
  rw [hp] at hq
  cases hq
  exact ⟨hst, hld, hpar⟩

/-- C3 counterexample.  Connecting a descriptor with `tr.load = 0` to the STORE
endpoint `"out"` succeeds (`connect` only rejects `tr.load > 1`), whereas the
claim requires `tr.load == 1` and predicts rejection. -/
theorem C3_counterexample :
    trLoad0.load = 0 ∧
    (sampleTree.nodes.lookup "out").map (fun nd => nd.type) = some NodeType.store ∧
    (connect sampleTree trLoad0 "out" ["a"] []).2 = none :=
  ⟨rfl, rfl, by decide⟩

/-- Witness for C3 (amended): a successful 1-in 1-out connection to the LOAD
endpoint of the sample tree satisfies the amended slot conditions. -/
theorem C3_witness :
    sampleTree.nodes.lookup "in" = some inNode ∧
    (connect sampleTree trId "in" ["src"] []).2 = none ∧
    ((inNode.type = NodeType.store → trId.load ≤ 1 ∧ trId.store = (["src"] : List String).length) ∧
      (inNode.type = NodeType.load → trId.store ≤ 1 ∧ trId.load = (["src"] : List String).length) ∧
      trId.parameters = ([] : List String).length) :=
  ⟨rfl, by decide, C3_slot_counts sampleTree trId "in" ["src"] [] inNode rfl (by decide)⟩

/-- C4 (amended).  `connect` succeeds exactly when, besides the endpoint, name
and count checks, every reused name satisfies the code's rules: an array slot
rejects a SCALAR node, a STORE endpoint rejects *any* existing node as a
downstream child, and a scalar slot rejects a non-SCALAR node.  The direction
of a reused array node is *not* checked: reusing an existing STORE node as an
upstream array child of a LOAD endpoint is accepted (`C4_counterexample`), not
rejected as the claim states.  On success every node other than the endpoint
is left untouched (the existing node is reused). -/
theorem C4_name_reuse {D : Type} (t : TransformationTree D) (tr : Transformation D)
    (a : String) (naa nsa : List String) :
    ((connect t tr a naa nsa).2 = none ↔
      has_array_leaf t a = true ∧
      (∀ n ∈ naa ++ nsa, valid_argument_name n = true) ∧
      ∃ parent, t.nodes.lookup a = some parent ∧
        (parent.type = NodeType.store → tr.load ≤ 1 ∧ tr.store = naa.length) ∧
        (parent.type = NodeType.load → tr.store ≤ 1 ∧ tr.load = naa.length) ∧
        tr.parameters = nsa.length ∧
        (∀ n ∈ naa, ∀ nd, t.nodes.lookup n = some nd →
          ¬ nd.type = NodeType.scalar ∧ ¬ parent.type = NodeType.store) ∧
        (∀ n ∈ nsa, ∀ nd, t.nodes.lookup n = some nd → nd.type = NodeType.scalar)) ∧
    ((connect t tr a naa nsa).2 = none →
      ∀ n, ¬ n = a → ∀ nd, t.nodes.lookup n = some nd →
        (connect t tr a naa nsa).1.nodes.lookup n = some nd) :=
  ⟨connect_snd_none_iff t tr a naa nsa,
    fun h n hna nd hnd => connect_preserves t tr a naa nsa h n hna nd hnd⟩

/-- C4 counterexample.  Reusing the existing STORE root `"out"` as the upstream
array child of the LOAD endpoint `"in"` is accepted by `connect`; the claim
predicts rejection as a kind mismatch. -/
theorem C4_counterexample :
    (sampleTree.nodes.lookup "out").map (fun nd => nd.type) = some NodeType.store ∧
    (sampleTree.nodes.lookup "in").map (fun nd => nd.type) = some NodeType.load ∧
    (connect sampleTree trId "in" ["out"] []).2 = none :=
  ⟨rfl, rfl, by decide⟩

/-- Witness for C4 (amended): the success characterization applied to a
concrete connection with a fresh array name. -/
theorem C4_witness :
    (connect sampleTree trId "in" ["alt"] []).2 = none := by
  apply ((C4_name_reuse sampleTree trId "in" ["alt"] []).1).mpr
  refine ⟨by decide, by decide, inNode, rfl, by decide, by decide, by decide, ?_, ?_⟩
  · intro n hn nd hnd
    rcases List.mem_singleton.mp hn with rfl
    simp only [show sampleTree.nodes.lookup "alt" = none from rfl] at hnd
    cases hnd
  · intro n hn
    exact absurd hn (List.not_mem_nil n)

/-- C5 (confirmed).  `connect` is atomic: on every error the returned tree is
exactly the input tree — no node is added and the endpoint's `children` and
`tr_to_children` are unchanged (python delays all mutation past the checks). -/
theorem C5_connect_atomic {D : Type} (t : TransformationTree D) (tr : Transformation D)
    (a : String) (naa nsa : List String)
    (h : ¬ (connect t tr a naa nsa).2 = none) :
    (connect t tr a naa nsa).1 = t :=
  (connect_error_shape t tr a naa nsa).resolve_left h

/-- Witness for C5: a failing connection (unknown endpoint) leaves the sample
tree unchanged. -/
theorem C5_witness :
    ¬ (connect sampleTree trId "nope" [] []).2 = none ∧
    (connect sampleTree trId "nope" [] []).1 = sampleTree :=
  ⟨by decide, C5_connect_atomic sampleTree trId "nope" [] [] (by decide)⟩

/-! ### Type and shape propagation -/

/-- The failures of the propagation passes (transformation.py lines 285-352),
one constructor per python failure mode. -/
inductive PropError where
  /-- `TypePropagationError` (line 338); the message names the child. -/
  | typeConflict (name : String)
  /-- The failed `assert len(set(child_shapes)) == 1` (line 311). -/
  | shapeAssert
  /-- A `KeyError`: a name missing from `self.nodes` or from `values_dict`. -/
  | keyError (name : String)
  /-- An `AttributeError`: `fill_with` across value variants. -/
  | attrError (name : String)
  /-- A python `None` dtype reaching the (external) numpy derivation helpers. -/
  | badDtype (name : String)
  /-- `derive_types(...)[0]` on an empty result (`IndexError`, line 306). -/
  | emptyDerivation (name : String)
  /-- Fuel exhaustion of the embedding; unreachable from the wrappers. -/
  | noFuel
deriving DecidableEq, Repr

/-- Assign a node's `value` field, leaving everything else in place (the
python attribute assignments on `node.value`). -/
def setValue {D : Type} (t : TransformationTree D) (name : String) (v : Value D) :
    TransformationTree D :=
  { t with nodes := t.nodes.map (fun p =>
      if p.1 = name then (p.1, { p.2 with value := v }) else p) }

/-- `_clear_values` (transformation.py lines 281-283). -/
def clear_values {D : Type} (t : TransformationTree D) : TransformationTree D :=
  { t with nodes := t.nodes.map (fun p => (p.1, { p.2 with value := p.2.value.clear })) }

/-- `node.value.fill_with(values_dict[name])` for a leaf (transformation.py
lines 296 and 351). -/
def fillFromValues {D : Type} (t : TransformationTree D)
    (values : List (String × Value D)) (name : String) :
    Except PropError (TransformationTree D) :=
  match t.nodes.lookup name with
  | none => .error (.keyError name)
  | some nd =>
    match values.lookup name with
    | none => .error (.keyError name)
    | some v =>
      match nd.value.fill_with v with
      | none => .error (.attrError name)
      | some v2 => .ok (setValue t name v2)

/-- One iteration of the child loop of `propagate_to_leaves` (transformation.py
lines 333-344), before the recursive descent: the dtype check/assignment and
the shape inheritance of array children.  On a conflict the shape is not
touched (the raise exits first). -/
def propagate_child_update {D : Type} [DecidableEq D] (t : TransformationTree D)
    (parent_shape : Option (List Nat)) (child : String) (dtype : D) :
    Except PropError (TransformationTree D) :=
  match t.nodes.lookup child with
  | none => .error (.keyError child)
  | some cnode =>
    match cnode.value.dtype with
    | none => .ok (setValue t child ((cnode.value.withDtype (some dtype)).withShape parent_shape))
    | some d =>
      if d = dtype then
        .ok (setValue t child (cnode.value.withShape parent_shape))
      else .error (.typeConflict child)

/-- The work items of the `propagate_to_leaves` recursion: one call of
`propagate(name)` (lines 323-346), or the remainder of a child loop. -/
inductive LeafTask (D : Type) where
  | node (name : String)
  | kids (parent_shape : Option (List Nat)) (pairs : List (String × D))

/-- The recursion of `propagate_to_leaves` as a fuelled interpreter (one unit
of fuel per step, structural so that it computes by kernel reduction; the
wrapper supplies ample fuel).  `.node` performs lines 324-333 — leaves return
immediately, otherwise the dtypes of the children are derived with
`derive_sp_from_l` for a STORE node and `derive_lp_from_s` for a LOAD node and
the child loop starts; `.kids` performs one iteration of lines 333-346:
update the child, recurse into it, continue with the remaining siblings. -/
def propLeavesGo {D : Type} [DecidableEq D] :
    Nat → TransformationTree D → LeafTask D → Except PropError (TransformationTree D)
  | 0, _, _ => .error .noFuel
  | fuel + 1, t, .node name =>
    match t.nodes.lookup name with
    | none => .error (.keyError name)
    | some node =>
      match node.children with
      | none => .ok t
      | some children =>
        match node.tr_to_children with
        | none => .error (.keyError name)
        | some tr =>
          match node.value.dtype with
          | none => .error (.badDtype name)
          | some d =>
            propLeavesGo fuel t (.kids node.value.shapeOpt
              (children.zip ((if node.type = NodeType.store then tr.derive_sp_from_l d
                else tr.derive_lp_from_s d).1 ++
                (if node.type = NodeType.store then tr.derive_sp_from_l d
                else tr.derive_lp_from_s d).2)))
  | _ + 1, t, .kids _ [] => .ok t
  | fuel + 1, t, .kids pshape ((c, dt) :: rest) =>
    match propagate_child_update t pshape c dt with
    | .error e => .error e
    | .ok t1 =>
      match propLeavesGo fuel t1 (.node c) with
      | .error e => .error e
      | .ok t2 => propLeavesGo fuel t2 (.kids pshape rest)

/-- Ample fuel for the propagation interpreters. -/
def prop_fuel {D : Type} (t : TransformationTree D) : Nat :=
  (t.nodes.length + 2) * ((t.nodes.map (fun p => node_weight p.2)).sum + 2)

/-- The loop over base names of `propagate_to_leaves` (lines 348-352): fill
each root from the user values, then push down. -/
def propLeavesBases {D : Type} [DecidableEq D] (values : List (String × Value D)) :
    TransformationTree D → List String → Except PropError (TransformationTree D)
  | t, [] => .ok t
  | t, n :: rest =>
    match fillFromValues t values n with
    | .error e => .error e
    | .ok t1 =>
      match propLeavesGo (prop_fuel t1) t1 (.node n) with
      | .error e => .error e
      | .ok t2 => propLeavesBases values t2 rest

/-- `propagate_to_leaves` (transformation.py lines 317-352). -/
def propagate_to_leaves {D : Type} [DecidableEq D] (t : TransformationTree D)
    (values : List (String × Value D)) : Except PropError (TransformationTree D) :=
  propLeavesBases values (clear_values t) t.base_names

/-- The `shape` values of the array members of a list of child values:
`[v.shape for v in vals if hasattr(v, 'shape')]` (transformation.py lines
309-310); `ScalarValue` has no `shape` attribute. -/
def array_shapes {D : Type} (vals : List (Value D)) : List (Option (List Nat)) :=
  vals.filterMap (fun v => match v with
    | .array sh _ => some sh
    | .scalar _ _ => none)

/-- The shape step of `propagate_to_base` (transformation.py lines 309-312):
`assert len(set(child_shapes)) == 1` then take `child_shapes[0]`.  A set has
exactly one element iff the list is non-empty and all its members are equal,
so the assertion also fails when there are *no* array children. -/
def deduceShape {D : Type} (vals : List (Value D)) : Except PropError (Option (List Nat)) :=
  match array_shapes vals with
  | [] => .error .shapeAssert
  | s :: rest => if rest.all (fun x => x == s) then .ok s else .error .shapeAssert

/-- `[self.nodes[child].value.dtype for child in node.children]` (line 303),
requiring every dtype to be present (a `None` would crash the external numpy
promotion). -/
def childDtypes {D : Type} (t : TransformationTree D) :
    List String → Except PropError (List D)
  | [] => .ok []
  | c :: rest =>
    match t.nodes.lookup c with
    | none => .error (.keyError c)
    | some nd =>
      match nd.value.dtype with
      | none => .error (.badDtype c)
      | some d =>
        match childDtypes t rest with
        | .error e => .error e
        | .ok ds => .ok (d :: ds)

/-- The children's value objects (for the shape collection of lines 309-310). -/
def childValues {D : Type} (t : TransformationTree D) :
    List String → Except PropError (List (Value D))
  | [] => .ok []
  | c :: rest =>
    match t.nodes.lookup c with
    | none => .error (.keyError c)
    | some nd =>
      match childValues t rest with
      | .error e => .error e
      | .ok vs => .ok (nd.value :: vs)

/-- The work items of the `propagate_to_base` recursion (`deduce`, lines
291-312): one call of `deduce(name)`, or the remainder of the children loop. -/
inductive BaseTask where
  | node (name : String)
  | kids (names : List String)

/-- The recursion of `propagate_to_base` as a fuelled interpreter.  `.node` is
one call of `deduce` (lines 291-312): leaves are filled from the user values;
for an inner node the children are deduced first, then the node dtype is
derived from the children's dtypes (`derive_l_from_sp` for a STORE node,
`derive_s_from_lp` for a LOAD node, result indexed at 0) and the node shape
is the children's common shape (`deduceShape`).  The python code mutates the
dtype before the shape assertion; since an error discards the state, the
embedding performs both writes after the assertion. -/
def propBaseGo {D : Type} [DecidableEq D] (values : List (String × Value D)) :
    Nat → TransformationTree D → BaseTask → Except PropError (TransformationTree D)
  | 0, _, _ => .error .noFuel
  | fuel + 1, t, .node name =>
    match t.nodes.lookup name with
    | none => .error (.keyError name)
    | some node =>
      match node.children with
      | none => fillFromValues t values name
      | some children =>
        match propBaseGo values fuel t (.kids children) with
        | .error e => .error e
        | .ok t1 =>
          match t1.nodes.lookup name with
          | none => .error (.keyError name)
          | some node1 =>
            match node1.tr_to_children with
            | none => .error (.keyError name)
            | some tr =>
              match childDtypes t1 children with
              | .error e => .error e
              | .ok ds =>
                match (if node1.type = NodeType.store then tr.derive_l_from_sp ds
                  else tr.derive_s_from_lp ds) with
                | [] => .error (.emptyDerivation name)
                | d0 :: _ =>
                  match childValues t1 children with
                  | .error e => .error e
                  | .ok vals =>
                    match deduceShape vals with
                    | .error e => .error e
                    | .ok sh =>
                      .ok (setValue t1 name
                        ((node1.value.withDtype (some d0)).withShape sh))
  | _ + 1, t, .kids [] => .ok t
  | fuel + 1, t, .kids (c :: rest) =>
    match propBaseGo values fuel t (.node c) with
    | .error e => .error e
    | .ok t1 => propBaseGo values fuel t1 (.kids rest)

/-- The loop over base names of `propagate_to_base` (lines 314-315). -/
def propBaseBases {D : Type} [DecidableEq D] (values : List (String × Value D)) :
    TransformationTree D → List String → Except PropError (TransformationTree D)
  | t, [] => .ok t
  | t, n :: rest =>
    match propBaseGo values (prop_fuel t) t (.node n) with
    | .error e => .error e
    | .ok t1 => propBaseBases values t1 rest

/-- `propagate_to_base` (transformation.py lines 285-315). -/
def propagate_to_base {D : Type} [DecidableEq D] (t : TransformationTree D)
    (values : List (String × Value D)) : Except PropError (TransformationTree D) :=
  propBaseBases values (clear_values t) t.base_names

/-! ### Facts about `setValue` -/

theorem lookup_map_setValue {D : Type} (name : String) (v : Value D) :
    ∀ (nodes : List (String × Node D)) (cnode : Node D),
      nodes.lookup name = some cnode →
      (nodes.map (fun p =>
        if p.1 = name then (p.1, { p.2 with value := v }) else p)).lookup name
        = some { cnode with value := v } := by
  intro nodes
  induction nodes with
  | nil => intro c h; cases h
  | cons p tl ih =>
    intro c h
    cases p with
    | mk k nd =>
      simp only [List.map_cons]
      by_cases hk : k = name
      · subst hk
        simp only [if_pos rfl]
        simp only [List.lookup, beq_self_eq_true] at h ⊢
        cases h
        rfl
      · rw [if_neg hk]
        have hbk : (name == k) = false :=
          beq_eq_false_iff_ne.mpr (fun hh => hk hh.symm)
        simp only [List.lookup, hbk] at h ⊢
        exact ih c h

theorem lookup_setValue_self {D : Type} (t : TransformationTree D) (name : String)
    (v : Value D) (cnode : Node D) (hc : t.nodes.lookup name = some cnode) :
    (setValue t name v).nodes.lookup name = some { cnode with value := v } :=
  lookup_map_setValue name v t.nodes cnode hc

theorem lookup_map_setValue_ne {D : Type} (name n : String) (v : Value D)
    (hne : ¬ n = name) :
    ∀ (nodes : List (String × Node D)),
      (nodes.map (fun p =>
        if p.1 = name then (p.1, { p.2 with value := v }) else p)).lookup n
        = nodes.lookup n := by
  intro nodes
  induction nodes with
  | nil => rfl
  | cons p tl ih =>
    cases p with
    | mk k nd =>
      simp only [List.map_cons]
      by_cases hk : k = name
      · subst hk
        simp only [if_pos rfl]
        have hbk : (n == k) = false := beq_eq_false_iff_ne.mpr hne
        simp only [List.lookup, hbk]
        exact ih
      · rw [if_neg hk]
        simp only [List.lookup]
        cases n == k
        · exact ih
        · rfl

theorem lookup_setValue_ne {D : Type} (t : TransformationTree D) (name n : String)
    (v : Value D) (hne : ¬ n = name) :
    (setValue t name v).nodes.lookup n = t.nodes.lookup n :=
  lookup_map_setValue_ne name n v hne t.nodes

theorem value_withDtype_dtype {D : Type} (v : Value D) (d : Option D) :
    (v.withDtype d).dtype = d := by
  cases v <;> rfl

theorem value_withShape_dtype {D : Type} (v : Value D) (sh : Option (List Nat)) :
    (v.withShape sh).dtype = v.dtype := by
  cases v <;> rfl

theorem value_withShape_is_array {D : Type} (v : Value D) (sh : Option (List Nat)) :
    (v.withShape sh).is_array = v.is_array := by
  cases v <;> rfl

theorem value_withDtype_is_array {D : Type} (v : Value D) (d : Option D) :
    (v.withDtype d).is_array = v.is_array := by
  cases v <;> rfl

theorem value_withShape_shapeOpt {D : Type} (v : Value D) (sh : Option (List Nat))
    (h : v.is_array = true) : (v.withShape sh).shapeOpt = sh := by
  cases v
  · rfl
  · simp [Value.is_array] at h

/-! ### C6: `propagate_to_leaves` per-child behaviour -/

/-- C6 (confirmed).  During `propagate_to_leaves`, for a non-leaf node the
derived child dtypes come from `derive_sp_from_l` for STORE nodes and
`derive_lp_from_s` for LOAD nodes (third conjunct, the dispatch equation of
one `propagate` step); and each child update behaves as claimed: an undefined
child dtype is assigned the derived dtype, a defined and agreeing dtype is
left, a defined and differing dtype raises `TypePropagationError` naming that
child; array children inherit the parent's shape, scalar children keep no
shape; all other nodes are untouched. -/
theorem C6_type_propagation {D : Type} [DecidableEq D] (t : TransformationTree D)
    (pshape : Option (List Nat)) (c : String) (dt : D) (cnode : Node D)
    (hc : t.nodes.lookup c = some cnode) :
    ((cnode.value.dtype = none ∨ cnode.value.dtype = some dt) →
      ∃ t2, propagate_child_update t pshape c dt = .ok t2 ∧
        ∃ cnode2, t2.nodes.lookup c = some cnode2 ∧
          cnode2.type = cnode.type ∧
          cnode2.value.dtype = some dt ∧
          cnode2.value.is_array = cnode.value.is_array ∧
          (cnode.value.is_array = true → cnode2.value.shapeOpt = pshape) ∧
          (∀ n, ¬ n = c → t2.nodes.lookup n = t.nodes.lookup n)) ∧
    (∀ d, cnode.value.dtype = some d → ¬ d = dt →
      propagate_child_update t pshape c dt = .error (.typeConflict c)) ∧
    (∀ (fuel : Nat) (name : String) (node : Node D) (cs : List String)
        (tr : Transformation D) (d : D),
      t.nodes.lookup name = some node → node.children = some cs →
      node.tr_to_children = some tr → node.value.dtype = some d →
      propLeavesGo (fuel + 1) t (.node name) =
        propLeavesGo fuel t (.kids node.value.shapeOpt
          (cs.zip ((if node.type = NodeType.store then tr.derive_sp_from_l d
            else tr.derive_lp_from_s d).1 ++
            (if node.type = NodeType.store then tr.derive_sp_from_l d
            else tr.derive_lp_from_s d).2)))) := by
  refine ⟨?_, ?_, ?_⟩
  · intro hd
    unfold propagate_child_update
    rw [hc]
    simp only []
    rcases hd with hd | hd
    · rw [hd]
      refine ⟨_, rfl, { cnode with
        value := (cnode.value.withDtype (some dt)).withShape pshape }, ?_, rfl, ?_, ?_, ?_, ?_⟩
      · exact lookup_setValue_self t c _ cnode hc
      · rw [value_withShape_dtype, value_withDtype_dtype]
      · rw [value_withShape_is_array, value_withDtype_is_array]
      · intro ha
        exact value_withShape_shapeOpt _ _ (by rw [value_withDtype_is_array]; exact ha)
      · intro n hn
        exact lookup_setValue_ne t c n _ hn
    · rw [hd]
      simp only []
      rw [if_pos trivial]
      refine ⟨_, rfl, { cnode with value := cnode.value.withShape pshape }, ?_, rfl, ?_, ?_, ?_, ?_⟩
      · exact lookup_setValue_self t c _ cnode hc
      · rw [value_withShape_dtype, hd]
      · rw [value_withShape_is_array]
      · intro ha
        exact value_withShape_shapeOpt _ _ ha
      · intro n hn
        exact lookup_setValue_ne t c n _ hn
  · intro d hd hne
    unfold propagate_child_update
    rw [hc]
    simp only []
    rw [hd]
    simp only []
    rw [if_neg hne]
  · intro fuel name node cs tr d hname hcs htr hd
    simp only [propLeavesGo]
    rw [hname]
    simp only []
    rw [hcs]
    simp only []
    rw [htr]
    simp only []
    rw [hd]

/-- The fixture tree for the C6 witness: a single array node with no dtype. -/
def treeW : TransformationTree Nat where
  nodes := [("c", { type := NodeType.load, value := Value.array none none })]
  base_names := ["c"]

/-- Witness for C6: assigning dtype 7 and shape (4,) to the undefined child
`"c"` of `treeW`. -/
theorem C6_witness :
    treeW.nodes.lookup "c" = some { type := NodeType.load, value := Value.array none none } ∧
    ((Value.array none none : Value Nat).dtype = none ∨
      (Value.array none none : Value Nat).dtype = some 7) ∧
    ∃ t2, propagate_child_update treeW (some [4]) "c" 7 = .ok t2 ∧
      ∃ cnode2, t2.nodes.lookup "c" = some cnode2 ∧
        cnode2.type = ({ type := NodeType.load, value := Value.array none none } : Node Nat).type ∧
        cnode2.value.dtype = some 7 ∧
        cnode2.value.is_array = (Value.array none none : Value Nat).is_array ∧
        ((Value.array none none : Value Nat).is_array = true →
          cnode2.value.shapeOpt = some [4]) ∧
        (∀ n, ¬ n = "c" → t2.nodes.lookup n = treeW.nodes.lookup n) :=
  ⟨rfl, Or.inl rfl,
    (C6_type_propagation treeW (some [4]) "c" 7
      { type := NodeType.load, value := Value.array none none } rfl).1 (Or.inl rfl)⟩

/-! ### C7: the shape step of `propagate_to_base` -/

/-- C7 (amended).  The shape step fails with the (assertion) error whenever two
array children carry different shapes; when the array children are *non-empty*
and all agree, the node is assigned that common shape and no error is raised.
The non-emptiness is the amendment: `assert len(set(child_shapes)) == 1` also
fails when a node has no array children at all (`C7_counterexample`). -/
theorem C7_shape_propagation {D : Type} (vals : List (Value D)) :
    (∀ s1 s2, s1 ∈ array_shapes vals → s2 ∈ array_shapes vals → ¬ s1 = s2 →
      deduceShape vals = .error PropError.shapeAssert) ∧
    (∀ s, ¬ array_shapes vals = [] → (∀ x ∈ array_shapes vals, x = s) →
      deduceShape vals = .ok s) := by
  constructor
  · intro s1 s2 h1 h2 hne
    unfold deduceShape
    cases hsh : array_shapes vals with
    | nil => rfl
    | cons s0 rest =>
      simp only []
      rw [hsh] at h1 h2
      by_cases hall : rest.all (fun x => x == s0) = true
      · exfalso
        have hmem : ∀ x ∈ s0 :: rest, x = s0 := by
          intro x hx
          rcases List.mem_cons.mp hx with rfl | hm
          · rfl
          · exact beq_iff_eq.mp (List.all_eq_true.mp hall x hm)
        exact hne ((hmem s1 h1).trans (hmem s2 h2).symm)
      · rw [if_neg hall]
  · intro s hne hall
    unfold deduceShape
    cases hsh : array_shapes vals with
    | nil => exact absurd hsh hne
    | cons s0 rest =>
      simp only []
      rw [hsh] at hall
      have hs0 : s0 = s := hall s0 (List.mem_cons_self _ _)
      subst hs0
      rw [if_pos ?_]
      rw [List.all_eq_true]
      intro x hx
      exact beq_iff_eq.mpr (hall x (List.mem_cons_of_mem _ hx))

/-- The base tree `TransformationTree(stores=[], loads=["in"], scalars=[])` for
the C7 counterexample. -/
def loadOnlyTree : TransformationTree Nat where
  nodes := [("in", { type := NodeType.load, value := Value.array none none })]
  base_names := ["in"]

/-- A 0-in 1-out descriptor with one scalar parameter, whose root-ward
derivation returns the child dtypes unchanged. -/
def trP : Transformation Nat :=
  { load := 0, store := 1, parameters := 1, derive_s_from_lp := fun ds => ds }

/-- The tree obtained by connecting `trP` to `"in"` with only the scalar
parameter `"s"` (a connection the code accepts, see C3): the node `"in"` then
has a single scalar child and no array children. -/
def treeC7 : TransformationTree Nat := (connect loadOnlyTree trP "in" [] ["s"]).1

/-- C7 counterexample.  In `treeC7` (a tree obtained through the constructor
and one accepted `connect`) all array children of every node trivially agree —
the node `"in"` has no array children — yet `propagate_to_base` raises the
shape assertion. -/
theorem C7_counterexample :
    mkTree Nat [] ["in"] [] = some loadOnlyTree ∧
    (connect loadOnlyTree trP "in" [] ["s"]).2 = none ∧
    propagate_to_base treeC7 [("s", Value.scalar none (some 3))] =
      .error PropError.shapeAssert :=
  ⟨rfl, rfl, rfl⟩

/-- Witness for C7 (amended): two array children with shapes `(2,)` and `(3,)`
trigger the error; two agreeing children propagate the common shape. -/
theorem C7_witness :
    some [2] ∈ array_shapes [Value.array (some [2]) (none : Option Nat),
      Value.array (some [3]) none] ∧
    deduceShape [Value.array (some [2]) (none : Option Nat), Value.array (some [3]) none] =
      .error PropError.shapeAssert ∧
    deduceShape [Value.array (some [2]) (none : Option Nat), Value.array (some [2]) none] =
      .ok (some [2]) :=
  ⟨by decide,
    (C7_shape_propagation _).1 (some [2]) (some [3]) (by decide) (by decide) (by decide),
    (C7_shape_propagation _).2 (some [2]) (by decide) (by decide)⟩

/-! ### C10: `wrap_value` -/

/-- The duck-typed argument of `wrap_value` (transformation.py lines 158-163):
an object that may or may not carry a `shape` attribute (`none` models the
absence of the attribute) and a declared `dtype`; its remaining content is
opaque.  `dtypes.min_scalar_type` is an external numpy helper (the spec puts
the numerical-type helpers out of scope) and is passed in abstractly. -/
structure PyObject (D : Type) where
  shape : Option (List Nat)
  dtype : D
deriving DecidableEq, Repr

/-- The two possible results of `wrap_value`: `ArrayValue(shape, dtype)` or
`ScalarValue(value, dtype)` (the scalar keeps the whole object as its
payload). -/
inductive Wrapped (D : Type) where
  | arrayW (shape : List Nat) (dtype : D)
  | scalarW (obj : PyObject D) (dtype : D)
deriving DecidableEq, Repr

/-- Whether `wrap_value` produced a `ScalarValue`. -/
def Wrapped.isScalar {D : Type} : Wrapped D → Bool
  | .arrayW _ _ => false
  | .scalarW _ _ => true

/-- `wrap_value` (transformation.py lines 158-163):
`hasattr(value, 'shape') and len(value.shape) > 0` selects the array branch;
everything else — including a 0-dimensional array — becomes a scalar whose
dtype is `min_scalar_type(value)`, not the declared dtype. -/
def wrap_value {D : Type} (min_scalar_type : PyObject D → D) (v : PyObject D) :
    Wrapped D :=
  match v.shape with
  | some sh =>
    if 0 < sh.length then .arrayW sh v.dtype else .scalarW v (min_scalar_type v)
  | none => .scalarW v (min_scalar_type v)

/-- C10 (confirmed).  `wrap_value` returns a scalar exactly when the value has
no `shape` attribute or its shape has length zero (a 0-dimensional array is
classified as a scalar, with dtype chosen by `min_scalar_type` from the value
itself rather than its declared dtype); otherwise it returns an array value
carrying the value's shape and declared dtype. -/
theorem C10_wrap_value {D : Type} (f : PyObject D → D) (v : PyObject D) :
    ((wrap_value f v).isScalar = true ↔
      v.shape = none ∨ ∃ sh, v.shape = some sh ∧ sh.length = 0) ∧
    (∀ sh, v.shape = some sh → 0 < sh.length →
      wrap_value f v = .arrayW sh v.dtype) ∧
    ((wrap_value f v).isScalar = true → wrap_value f v = .scalarW v (f v)) := by
  unfold wrap_value
  cases hs : v.shape with
  | none =>
    refine ⟨iff_of_true rfl (Or.inl rfl), ?_, fun _ => rfl⟩
    intro sh h
    cases h
  | some sh =>
    simp only []
    by_cases hl : 0 < sh.length
    · rw [if_pos hl]
      refine ⟨?_, ?_, ?_⟩
      · refine iff_of_false (by simp [Wrapped.isScalar]) ?_
        rintro (h | ⟨sh2, hsh2, hlen⟩)
        · cases h
        · cases hsh2
          omega
      · intro sh2 hsh2 _
        cases hsh2
        rfl
      · intro h
        exact Bool.noConfusion h
    · rw [if_neg hl]
      refine ⟨iff_of_true rfl (Or.inr ⟨sh, rfl, by omega⟩), ?_, fun _ => rfl⟩
      intro sh2 hsh2 hlen2
      cases hsh2
      omega

/-- Witness for C10: a 1-D array stays an array with its declared dtype; a
0-dimensional array becomes a scalar typed by `min_scalar_type`. -/
theorem C10_witness :
    wrap_value (fun _ => (0 : Nat)) ⟨some [2], 7⟩ = Wrapped.arrayW [2] 7 ∧
    wrap_value (fun _ => (0 : Nat)) ⟨some [], 7⟩ = Wrapped.scalarW ⟨some [], 7⟩ 0 :=
  ⟨(C10_wrap_value (fun _ => (0 : Nat)) ⟨some [2], 7⟩).2.1 [2] rfl (by norm_num),
    (C10_wrap_value (fun _ => (0 : Nat)) ⟨some [], 7⟩).2.2 rfl⟩

/-! ### C8: order and coverage of `leaf_signature`

The development below analyses the DFS of `visitGo`: an invariant part (the
accumulators are duplicate-free, append-only, and sound about the kind of
every collected name) and a coverage part (with the fuel supplied by
`leaf_signature` the traversal visits every requested name, and every newly
visited node is `Closed`: its children are visited and, if it is a leaf, it
has been emitted). -/

/-- A name that may sit in the `arrays` output: external to the tree, or an
array-kind leaf. -/
def AOk {D : Type} (t : TransformationTree D) (n : String) : Prop :=
  t.nodes.lookup n = none ∨
    ∃ nd, t.nodes.lookup n = some nd ∧ nd.children = none ∧ ¬ nd.type = NodeType.scalar

/-- A name that may sit in the DFS part of the `scalars` output: a SCALAR
leaf. -/
def SOk {D : Type} (t : TransformationTree D) (n : String) : Prop :=
  ∃ nd, t.nodes.lookup n = some nd ∧ nd.children = none ∧ nd.type = NodeType.scalar

/-- The running invariant of the DFS state. -/
structure SigInv {D : Type} (t : TransformationTree D) (st : SigState) : Prop where
  nodupA : st.arrays.Nodup
  nodupS : st.scalars.Nodup
  disj : ∀ n ∈ st.arrays, n ∉ st.scalars
  subA : ∀ n ∈ st.arrays, n ∈ st.visited
  subS : ∀ n ∈ st.scalars, n ∈ st.visited

/-- Pointwise growth of the DFS state. -/
def SigLe (st st2 : SigState) : Prop :=
  (∀ n ∈ st.visited, n ∈ st2.visited) ∧
  (∀ n ∈ st.arrays, n ∈ st2.arrays) ∧
  (∀ n ∈ st.scalars, n ∈ st2.scalars)

theorem sigLe_refl (st : SigState) : SigLe st st :=
  ⟨fun _ h => h, fun _ h => h, fun _ h => h⟩

theorem sigLe_trans {s1 s2 s3 : SigState} (h1 : SigLe s1 s2) (h2 : SigLe s2 s3) :
    SigLe s1 s3 :=
  ⟨fun n h => h2.1 n (h1.1 n h), fun n h => h2.2.1 n (h1.2.1 n h),
    fun n h => h2.2.2 n (h1.2.2 n h)⟩

/-- A visited name is fully processed: an external name or a leaf has been
emitted, and an inner node has all its children visited. -/
def Closed {D : Type} (t : TransformationTree D) (st : SigState) (n : String) : Prop :=
  (t.nodes.lookup n = none → n ∈ st.arrays) ∧
  (∀ nd, t.nodes.lookup n = some nd → nd.children = none →
    (nd.type = NodeType.scalar → n ∈ st.scalars) ∧
    (¬ nd.type = NodeType.scalar → n ∈ st.arrays)) ∧
  (∀ nd cs, t.nodes.lookup n = some nd → nd.children = some cs → ∀ c ∈ cs, c ∈ st.visited)

theorem closed_mono {D : Type} (t : TransformationTree D) {st st2 : SigState}
    (hle : SigLe st st2) (n : String) (h : Closed t st n) : Closed t st2 n := by
  refine ⟨fun hn => hle.2.1 n (h.1 hn), fun nd hnd hch => ?_, fun nd cs hnd hch c hc =>
    hle.1 c (h.2.2 nd cs hnd hch c hc)⟩
  obtain ⟨hs, ha⟩ := h.2.1 nd hnd hch
  exact ⟨fun ht => hle.2.2 n (hs ht), fun ht => hle.2.1 n (ha ht)⟩

/-- The names reachable from a list of roots by following `children` edges. -/
inductive ReachableFrom {D : Type} (t : TransformationTree D) (roots : List String) :
    String → Prop where
  | base {n : String} : n ∈ roots → ReachableFrom t roots n
  | child {m n : String} {nd : Node D} {cs : List String} :
      ReachableFrom t roots m → t.nodes.lookup m = some nd →
      nd.children = some cs → n ∈ cs → ReachableFrom t roots n

/-- A current boundary name: outside the tree (a temporary array) or a node
without children. -/
def isLeafName {D : Type} (t : TransformationTree D) (n : String) : Prop :=
  t.nodes.lookup n = none ∨ ∃ nd, t.nodes.lookup n = some nd ∧ nd.children = none

/-- Total `node_weight` of the nodes not yet visited: the DFS measure. -/
def unvisited_weight {D : Type} (t : TransformationTree D) (visited : List String) : Nat :=
  ((t.nodes.filter (fun p => ! decide (p.1 ∈ visited))).map
    (fun p => node_weight p.2)).sum

/-- The per-list core of the weight measure. -/
def entries_weight {D : Type} (v : List String) (nodes : List (String × Node D)) : Nat :=
  ((nodes.filter (fun p => ! decide (p.1 ∈ v))).map (fun p => node_weight p.2)).sum

theorem entries_weight_cons_mem {D : Type} (v : List String) (p : String × Node D)
    (tl : List (String × Node D)) (h : p.1 ∈ v) :
    entries_weight v (p :: tl) = entries_weight v tl := by
  unfold entries_weight
  rw [List.filter_cons, if_neg (by simp [h])]

theorem entries_weight_cons_not_mem {D : Type} (v : List String) (p : String × Node D)
    (tl : List (String × Node D)) (h : p.1 ∉ v) :
    entries_weight v (p :: tl) = node_weight p.2 + entries_weight v tl := by
  unfold entries_weight
  rw [List.filter_cons, if_pos (by simp [h]), List.map_cons, List.sum_cons]

theorem entries_weight_mono {D : Type} (v v2 : List String)
    (hsub : ∀ x ∈ v, x ∈ v2) (nodes : List (String × Node D)) :
    entries_weight v2 nodes ≤ entries_weight v nodes := by
  induction nodes with
  | nil => exact Nat.le_refl _
  | cons p tl ih =>
    by_cases h2 : p.1 ∈ v2
    · rw [entries_weight_cons_mem v2 p tl h2]
      by_cases h1 : p.1 ∈ v
      · rw [entries_weight_cons_mem v p tl h1]
        exact ih
      · rw [entries_weight_cons_not_mem v p tl h1]
        omega
    · have h1 : p.1 ∉ v := fun hm => h2 (hsub _ hm)
      rw [entries_weight_cons_not_mem v2 p tl h2, entries_weight_cons_not_mem v p tl h1]
      omega

theorem unvisited_weight_mono {D : Type} (t : TransformationTree D)
    (v v2 : List String) (hsub : ∀ x ∈ v, x ∈ v2) :
    unvisited_weight t v2 ≤ unvisited_weight t v :=
  entries_weight_mono v v2 hsub t.nodes

theorem unvisited_weight_le_total {D : Type} (t : TransformationTree D)
    (v : List String) :
    unvisited_weight t v ≤ (t.nodes.map (fun p => node_weight p.2)).sum := by
  show entries_weight v t.nodes ≤ _
  induction t.nodes with
  | nil => exact Nat.le_refl _
  | cons p tl ih =>
    simp only [List.map_cons, List.sum_cons]
    by_cases h : p.1 ∈ v
    · rw [entries_weight_cons_mem v p tl h]
      omega
    · rw [entries_weight_cons_not_mem v p tl h]
      omega

theorem entries_weight_visit {D : Type} (v : List String) (n : String) (nd : Node D) :
    ∀ (nodes : List (String × Node D)), nodes.lookup n = some nd → n ∉ v →
      entries_weight (n :: v) nodes + node_weight nd ≤ entries_weight v nodes := by
  intro nodes
  induction nodes with
  | nil => intro hl hv; cases hl
  | cons p tl ih =>
    intro hl hv
    cases p with
    | mk k nd2 =>
      by_cases hk : n = k
      · subst hk
        simp only [List.lookup, beq_self_eq_true] at hl
        cases hl
        rw [entries_weight_cons_mem (n :: v) (n, nd) tl (List.mem_cons_self _ _),
          entries_weight_cons_not_mem v (n, nd) tl hv]
        have h1 := entries_weight_mono v (n :: v)
          (fun x hx => List.mem_cons_of_mem _ hx) (tl : List (String × Node D))
        have h2 : node_weight ((n, nd) : String × Node D).2 = node_weight nd := rfl
        omega
      · have hbk : (n == k) = false := beq_eq_false_iff_ne.mpr hk
        simp only [List.lookup, hbk] at hl
        have hih := ih hl hv
        by_cases hm : k ∈ v
        · rw [entries_weight_cons_mem (n :: v) (k, nd2) tl (List.mem_cons_of_mem _ hm),
            entries_weight_cons_mem v (k, nd2) tl hm]
          exact hih
        · have hm2 : (k, nd2).1 ∉ n :: v := by
            simp only [List.mem_cons]
            rintro (h | h)
            · exact hk h.symm
            · exact hm h
          rw [entries_weight_cons_not_mem (n :: v) (k, nd2) tl hm2,
            entries_weight_cons_not_mem v (k, nd2) tl hm]
          omega

theorem unvisited_weight_visit {D : Type} (t : TransformationTree D)
    (v : List String) (n : String) (nd : Node D)
    (hl : t.nodes.lookup n = some nd) (hv : n ∉ v) :
    unvisited_weight t (n :: v) + node_weight nd ≤ unvisited_weight t v :=
  entries_weight_visit v n nd t.nodes hl hv

theorem visitGo_le {D : Type} (t : TransformationTree D) :
    ∀ (fuel : Nat) (names : List String) (st : SigState),
      SigLe st (visitGo t fuel names st) := by
  intro fuel
  induction fuel with
  | zero =>
    intro names st
    cases names <;> exact sigLe_refl _
  | succ fuel ih =>
    intro names st
    cases names with
    | nil => exact sigLe_refl _
    | cons n rest =>
      simp only [visitGo]
      by_cases hv : n ∈ st.visited
      · rw [if_pos hv]
        exact ih rest st
      · rw [if_neg hv]
        cases hl : t.nodes.lookup n with
        | none =>
          simp only []
          refine sigLe_trans ?_ (ih rest _)
          exact ⟨fun x hx => List.mem_cons_of_mem _ hx,
            fun x hx => List.mem_append_left _ hx, fun x hx => hx⟩
        | some node =>
          simp only []
          cases hch : node.children with
          | none =>
            simp only []
            by_cases hty : node.type = NodeType.scalar
            · rw [if_pos hty]
              refine sigLe_trans ?_ (ih rest _)
              exact ⟨fun x hx => List.mem_cons_of_mem _ hx, fun x hx => hx,
                fun x hx => List.mem_append_left _ hx⟩
            · rw [if_neg hty]
              refine sigLe_trans ?_ (ih rest _)
              exact ⟨fun x hx => List.mem_cons_of_mem _ hx,
                fun x hx => List.mem_append_left _ hx, fun x hx => hx⟩
          | some cs =>
            simp only []
            refine sigLe_trans ?_ (sigLe_trans (ih cs _) (ih rest _))
            exact ⟨fun x hx => List.mem_cons_of_mem _ hx, fun x hx => hx, fun x hx => hx⟩

/-- The DFS keeps the accumulators duplicate-free and sound, and only appends
to them: the `arrays` extension consists of external names and array-kind
leaves, the `scalars` extension of SCALAR leaves. -/
theorem visitGo_invariant {D : Type} (t : TransformationTree D) :
    ∀ (fuel : Nat) (names : List String) (st : SigState), SigInv t st →
      SigInv t (visitGo t fuel names st) ∧
      (∃ ta, (visitGo t fuel names st).arrays = st.arrays ++ ta ∧ ∀ n ∈ ta, AOk t n) ∧
      (∃ ts, (visitGo t fuel names st).scalars = st.scalars ++ ts ∧ ∀ n ∈ ts, SOk t n) := by
  intro fuel
  induction fuel with
  | zero =>
    intro names st hinv
    cases names <;>
      exact ⟨hinv, ⟨[], by simp [visitGo], by simp⟩, ⟨[], by simp [visitGo], by simp⟩⟩
  | succ fuel ih =>
    intro names st hinv
    cases names with
    | nil =>
      exact ⟨hinv, ⟨[], by simp [visitGo], by simp⟩, ⟨[], by simp [visitGo], by simp⟩⟩
    | cons n rest =>
      simp only [visitGo]
      by_cases hv : n ∈ st.visited
      · rw [if_pos hv]
        exact ih rest st hinv
      · rw [if_neg hv]
        cases hl : t.nodes.lookup n with
        | none =>
          simp only []
          have hinv1 : SigInv t ⟨n :: st.visited, st.arrays ++ [n], st.scalars⟩ := by
            refine ⟨?_, hinv.nodupS, ?_, ?_, ?_⟩
            · refine List.Nodup.append hinv.nodupA (List.nodup_singleton n) ?_
              intro x hx hx2
              rw [List.mem_singleton] at hx2
              subst hx2
              exact hv (hinv.subA x hx)
            · intro x hx
              rcases List.mem_append.mp hx with hx | hx
              · exact hinv.disj x hx
              · rw [List.mem_singleton] at hx
                subst hx
                intro hxs
                exact hv (hinv.subS x hxs)
            · intro x hx
              rcases List.mem_append.mp hx with hx | hx
              · exact List.mem_cons_of_mem _ (hinv.subA x hx)
              · rw [List.mem_singleton] at hx
                subst hx
                exact List.mem_cons_self _ _
            · intro x hx
              exact List.mem_cons_of_mem _ (hinv.subS x hx)
          obtain ⟨hinv2, ⟨ta, hta, hAta⟩, ⟨ts, hts, hSts⟩⟩ := ih rest _ hinv1
          refine ⟨hinv2, ⟨[n] ++ ta, ?_, ?_⟩, ⟨ts, hts, hSts⟩⟩
          · rw [hta]
            simp
          · intro x hx
            rcases List.mem_append.mp hx with hx | hx
            · rw [List.mem_singleton] at hx
              subst hx
              exact Or.inl hl
            · exact hAta x hx
        | some node =>
          simp only []
          cases hch : node.children with
          | none =>
            simp only []
            by_cases hty : node.type = NodeType.scalar
            · rw [if_pos hty]
              have hinv1 : SigInv t ⟨n :: st.visited, st.arrays, st.scalars ++ [n]⟩ := by
                refine ⟨hinv.nodupA, ?_, ?_, ?_, ?_⟩
                · refine List.Nodup.append hinv.nodupS (List.nodup_singleton n) ?_
                  intro x hx hx2
                  rw [List.mem_singleton] at hx2
                  subst hx2
                  exact hv (hinv.subS x hx)
                · intro x hx hx2
                  rcases List.mem_append.mp hx2 with hx2 | hx2
                  · exact hinv.disj x hx hx2
                  · rw [List.mem_singleton] at hx2
                    subst hx2
                    exact hv (hinv.subA x hx)
                · intro x hx
                  exact List.mem_cons_of_mem _ (hinv.subA x hx)
                · intro x hx
                  rcases List.mem_append.mp hx with hx | hx
                  · exact List.mem_cons_of_mem _ (hinv.subS x hx)
                  · rw [List.mem_singleton] at hx
                    subst hx
                    exact List.mem_cons_self _ _
              obtain ⟨hinv2, ⟨ta, hta, hAta⟩, ⟨ts, hts, hSts⟩⟩ := ih rest _ hinv1
              refine ⟨hinv2, ⟨ta, hta, hAta⟩, ⟨[n] ++ ts, ?_, ?_⟩⟩
              · rw [hts]
                simp
              · intro x hx
                rcases List.mem_append.mp hx with hx | hx
                · rw [List.mem_singleton] at hx
                  subst hx
                  exact ⟨node, hl, hch, hty⟩
                · exact hSts x hx
            · rw [if_neg hty]
              have hinv1 : SigInv t ⟨n :: st.visited, st.arrays ++ [n], st.scalars⟩ := by
                refine ⟨?_, hinv.nodupS, ?_, ?_, ?_⟩
                · refine List.Nodup.append hinv.nodupA (List.nodup_singleton n) ?_
                  intro x hx hx2
                  rw [List.mem_singleton] at hx2
                  subst hx2
                  exact hv (hinv.subA x hx)
                · intro x hx
                  rcases List.mem_append.mp hx with hx | hx
                  · exact hinv.disj x hx
                  · rw [List.mem_singleton] at hx
                    subst hx
                    intro hxs
                    exact hv (hinv.subS x hxs)
                · intro x hx
                  rcases List.mem_append.mp hx with hx | hx
                  · exact List.mem_cons_of_mem _ (hinv.subA x hx)
                  · rw [List.mem_singleton] at hx
                    subst hx
                    exact List.mem_cons_self _ _
                · intro x hx
                  exact List.mem_cons_of_mem _ (hinv.subS x hx)
              obtain ⟨hinv2, ⟨ta, hta, hAta⟩, ⟨ts, hts, hSts⟩⟩ := ih rest _ hinv1
              refine ⟨hinv2, ⟨[n] ++ ta, ?_, ?_⟩, ⟨ts, hts, hSts⟩⟩
              · rw [hta]
                simp
              · intro x hx
                rcases List.mem_append.mp hx with hx | hx
                · rw [List.mem_singleton] at hx
                  subst hx
                  exact Or.inr ⟨node, hl, hch, hty⟩
                · exact hAta x hx
          | some cs =>
            simp only []
            have hinv1 : SigInv t ⟨n :: st.visited, st.arrays, st.scalars⟩ := by
              refine ⟨hinv.nodupA, hinv.nodupS, hinv.disj, ?_, ?_⟩
              · intro x hx
                exact List.mem_cons_of_mem _ (hinv.subA x hx)
              · intro x hx
                exact List.mem_cons_of_mem _ (hinv.subS x hx)
            obtain ⟨hinv2, ⟨ta1, hta1, hAta1⟩, ⟨ts1, hts1, hSts1⟩⟩ := ih cs _ hinv1
            obtain ⟨hinv3, ⟨ta2, hta2, hAta2⟩, ⟨ts2, hts2, hSts2⟩⟩ := ih rest _ hinv2
            refine ⟨hinv3, ⟨ta1 ++ ta2, ?_, ?_⟩, ⟨ts1 ++ ts2, ?_, ?_⟩⟩
            · rw [hta2, hta1]
              simp
            · intro x hx
              rcases List.mem_append.mp hx with hx | hx
              · exact hAta1 x hx
              · exact hAta2 x hx
            · rw [hts2, hts1]
              simp
            · intro x hx
              rcases List.mem_append.mp hx with hx | hx
              · exact hSts1 x hx
              · exact hSts2 x hx

/-- With fuel at least `names.length + unvisited_weight`, the DFS visits every
requested name, and every newly visited name is `Closed` in the final state
(its children visited; if it is a boundary name, it has been emitted). -/
theorem visitGo_complete {D : Type} (t : TransformationTree D) :
    ∀ (fuel : Nat) (names : List String) (st : SigState),
      names.length + unvisited_weight t st.visited ≤ fuel →
      (∀ n ∈ names, n ∈ (visitGo t fuel names st).visited) ∧
      (∀ n, n ∈ (visitGo t fuel names st).visited → n ∉ st.visited →
        Closed t (visitGo t fuel names st) n) := by
  intro fuel
  induction fuel with
  | zero =>
    intro names st hfuel
    cases names with
    | nil =>
      simp only [visitGo]
      exact ⟨fun n hn => absurd hn (List.not_mem_nil n), fun n hn hns => absurd hn hns⟩
    | cons m rest =>
      rw [List.length_cons] at hfuel
      omega
  | succ fuel ih =>
    intro names st hfuel
    cases names with
    | nil =>
      simp only [visitGo]
      exact ⟨fun n hn => absurd hn (List.not_mem_nil n), fun n hn hns => absurd hn hns⟩
    | cons n rest =>
      rw [List.length_cons] at hfuel
      simp only [visitGo]
      by_cases hv : n ∈ st.visited
      · rw [if_pos hv]
        obtain ⟨hc1, hc2⟩ := ih rest st (by omega)
        refine ⟨?_, hc2⟩
        intro m hm
        rcases List.mem_cons.mp hm with rfl | hm
        · exact (visitGo_le t fuel rest st).1 _ hv
        · exact hc1 m hm
      · rw [if_neg hv]
        cases hl : t.nodes.lookup n with
        | none =>
          simp only []
          have hmono : unvisited_weight t (n :: st.visited) ≤ unvisited_weight t st.visited :=
            unvisited_weight_mono t st.visited (n :: st.visited)
              (fun x hx => List.mem_cons_of_mem _ hx)
          obtain ⟨hc1, hc2⟩ :=
            ih rest ⟨n :: st.visited, st.arrays ++ [n], st.scalars⟩ (by simp only []; omega)
          refine ⟨?_, ?_⟩
          · intro m hm
            rcases List.mem_cons.mp hm with rfl | hm
            · exact (visitGo_le t fuel rest _).1 _ (List.mem_cons_self _ _)
            · exact hc1 m hm
          · intro m hm hmv
            by_cases hm1 : m ∈ (⟨n :: st.visited, st.arrays ++ [n], st.scalars⟩ : SigState).visited
            · have hmn : m = n := by
                rcases List.mem_cons.mp hm1 with h | h
                · exact h
                · exact absurd h hmv
              subst hmn
              refine ⟨fun _ => ?_, fun nd hnd _ => ?_, fun nd cs hnd _ => ?_⟩
              · exact (visitGo_le t fuel rest _).2.1 _
                  (List.mem_append_right _ (List.mem_singleton.mpr rfl))
              · rw [hl] at hnd
                cases hnd
              · rw [hl] at hnd
                cases hnd
            · exact hc2 m hm hm1
        | some node =>
          simp only []
          have hvisit := unvisited_weight_visit t st.visited n node hl hv
          have hnw1 : 1 ≤ node_weight node := Nat.le_add_right 1 _
          cases hch : node.children with
          | none =>
            simp only []
            by_cases hty : node.type = NodeType.scalar
            · rw [if_pos hty]
              obtain ⟨hc1, hc2⟩ :=
                ih rest ⟨n :: st.visited, st.arrays, st.scalars ++ [n]⟩ (by simp only []; omega)
              refine ⟨?_, ?_⟩
              · intro m hm
                rcases List.mem_cons.mp hm with rfl | hm
                · exact (visitGo_le t fuel rest _).1 _ (List.mem_cons_self _ _)
                · exact hc1 m hm
              · intro m hm hmv
                by_cases hm1 :
                    m ∈ (⟨n :: st.visited, st.arrays, st.scalars ++ [n]⟩ : SigState).visited
                · have hmn : m = n := by
                    rcases List.mem_cons.mp hm1 with h | h
                    · exact h
                    · exact absurd h hmv
                  subst hmn
                  refine ⟨fun h0 => ?_, fun nd hnd _ => ?_, fun nd cs hnd hch2 => ?_⟩
                  · rw [hl] at h0
                    cases h0
                  · rw [hl] at hnd
                    cases hnd
                    refine ⟨fun _ => ?_, fun hty2 => absurd hty hty2⟩
                    exact (visitGo_le t fuel rest _).2.2 _
                      (List.mem_append_right _ (List.mem_singleton.mpr rfl))
                  · rw [hl] at hnd
                    cases hnd
                    rw [hch] at hch2
                    cases hch2
                · exact hc2 m hm hm1
            · rw [if_neg hty]
              obtain ⟨hc1, hc2⟩ :=
                ih rest ⟨n :: st.visited, st.arrays ++ [n], st.scalars⟩ (by simp only []; omega)
              refine ⟨?_, ?_⟩
              · intro m hm
                rcases List.mem_cons.mp hm with rfl | hm
                · exact (visitGo_le t fuel rest _).1 _ (List.mem_cons_self _ _)
                · exact hc1 m hm
              · intro m hm hmv
                by_cases hm1 :
                    m ∈ (⟨n :: st.visited, st.arrays ++ [n], st.scalars⟩ : SigState).visited
                · have hmn : m = n := by
                    rcases List.mem_cons.mp hm1 with h | h
                    · exact h
                    · exact absurd h hmv
                  subst hmn
                  refine ⟨fun h0 => ?_, fun nd hnd _ => ?_, fun nd cs hnd hch2 => ?_⟩
                  · rw [hl] at h0
                    cases h0
                  · rw [hl] at hnd
                    cases hnd
                    refine ⟨fun hty2 => absurd hty2 hty, fun _ => ?_⟩
                    exact (visitGo_le t fuel rest _).2.1 _
                      (List.mem_append_right _ (List.mem_singleton.mpr rfl))
                  · rw [hl] at hnd
                    cases hnd
                    rw [hch] at hch2
                    cases hch2
                · exact hc2 m hm hm1
          | some cs =>
            simp only []
            have hnw : node_weight node = 1 + cs.length := by
              unfold node_weight
              rw [hch]
              rfl
            obtain ⟨hin1, hin2⟩ :=
              ih cs ⟨n :: st.visited, st.arrays, st.scalars⟩ (by simp only []; omega)
            have hmono2 :
                unvisited_weight t (visitGo t fuel cs
                    ⟨n :: st.visited, st.arrays, st.scalars⟩).visited ≤
                  unvisited_weight t (n :: st.visited) :=
              unvisited_weight_mono t (n :: st.visited) _
                (visitGo_le t fuel cs ⟨n :: st.visited, st.arrays, st.scalars⟩).1
            obtain ⟨hout1, hout2⟩ :=
              ih rest (visitGo t fuel cs ⟨n :: st.visited, st.arrays, st.scalars⟩)
                (by omega)
            refine ⟨?_, ?_⟩
            · intro m hm
              rcases List.mem_cons.mp hm with rfl | hm
              · exact (visitGo_le t fuel rest _).1 _
                  ((visitGo_le t fuel cs _).1 _ (List.mem_cons_self _ _))
              · exact hout1 m hm
            · intro m hm hmv
              by_cases hm2 : m ∈ (visitGo t fuel cs
                  ⟨n :: st.visited, st.arrays, st.scalars⟩).visited
              · by_cases hm1 :
                    m ∈ (⟨n :: st.visited, st.arrays, st.scalars⟩ : SigState).visited
                · have hmn : m = n := by
                    rcases List.mem_cons.mp hm1 with h | h
                    · exact h
                    · exact absurd h hmv
                  subst hmn
                  refine ⟨fun h0 => ?_, fun nd hnd hch2 => ?_, fun nd cs2 hnd hch2 => ?_⟩
                  · rw [hl] at h0
                    cases h0
                  · rw [hl] at hnd
                    cases hnd
                    rw [hch] at hch2
                    cases hch2
                  · rw [hl] at hnd
                    cases hnd
                    rw [hch] at hch2
                    cases hch2
                    intro c hc
                    exact (visitGo_le t fuel rest _).1 c (hin1 c hc)
                · exact closed_mono t (visitGo_le t fuel rest _) m (hin2 m hm2 hm1)
              · exact hout2 m hm hm2

theorem leaf_signature_names {D : Type} (t : TransformationTree D) (base : List String) :
    (leaf_signature t base).map Prod.fst =
      (visitGo t (signature_fuel t base) base
        ⟨base_scalar_names t base, [], base_scalar_names t base⟩).arrays ++
      (visitGo t (signature_fuel t base) base
        ⟨base_scalar_names t base, [], base_scalar_names t base⟩).scalars := by
  unfold leaf_signature
  rw [List.map_map]
  have hfn : (Prod.fst ∘ fun n : String =>
      (n, Option.map (fun nd => nd.value) (List.lookup n t.nodes))) = id := rfl
  rw [hfn]
  simp only [List.map_id]

theorem reachable_visited_aux {D : Type} (t : TransformationTree D) (roots : List String)
    (stv : List String) (hroots : ∀ n ∈ roots, n ∈ stv)
    (hstep : ∀ (m : String) (nd : Node D) (cs : List String), m ∈ stv →
      t.nodes.lookup m = some nd → nd.children = some cs → ∀ c ∈ cs, c ∈ stv) :
    ∀ n, ReachableFrom t roots n → n ∈ stv := by
  intro n hr
  induction hr with
  | base hn => exact hroots _ hn
  | child hm hlm hch hc ih => exact hstep _ _ _ ih hlm hch _ hc

/-- C8 (confirmed).  For a valid tree (duplicate-free base names; SCALAR nodes
are leaves — `connect` only gives children to array endpoints), the default
`leaf_signature` returns each name at most once and each boundary name at
least once (completeness over the reachable leaves, third conjunct); the name
list splits as the pre-order-collected array entries followed by the scalars,
and the scalars are the base-level scalars in declaration order followed by
the transformation-introduced SCALAR leaves in visit order.  Determinism is
immediate: the embedding is a pure function of the tree. -/
theorem C8_leaf_signature {D : Type} (t : TransformationTree D)
    (hbase : t.base_names.Nodup)
    (hscalarleaf : ∀ (n : String) (nd : Node D), t.nodes.lookup n = some nd →
      nd.type = NodeType.scalar → nd.children = none) :
    ((leaf_signature t t.base_names).map Prod.fst).Nodup ∧
    (∃ arrs extra,
      (leaf_signature t t.base_names).map Prod.fst =
        arrs ++ (base_scalar_names t t.base_names ++ extra) ∧
      (∀ n ∈ arrs, AOk t n) ∧
      (∀ n ∈ extra, SOk t n)) ∧
    (∀ n, ReachableFrom t t.base_names n → isLeafName t n →
      n ∈ (leaf_signature t t.base_names).map Prod.fst) := by
  have hinv0 : SigInv t
      ⟨base_scalar_names t t.base_names, [], base_scalar_names t t.base_names⟩ := by
    refine ⟨List.nodup_nil, hbase.filter _, ?_, ?_, fun x hx => hx⟩
    · intro x hx
      cases hx
    · intro x hx
      cases hx
  obtain ⟨hinvF, ⟨ta, hta, hAta⟩, ⟨ts, hts, hSts⟩⟩ :=
    visitGo_invariant t (signature_fuel t t.base_names) t.base_names _ hinv0
  have hfuelok : t.base_names.length + unvisited_weight t
      ((⟨base_scalar_names t t.base_names, [],
        base_scalar_names t t.base_names⟩ : SigState)).visited ≤
      signature_fuel t t.base_names := by
    have htot := unvisited_weight_le_total t (base_scalar_names t t.base_names)
    unfold signature_fuel
    simp only []
    omega
  obtain ⟨hvis, hclosed⟩ :=
    visitGo_complete t (signature_fuel t t.base_names) t.base_names _ hfuelok
  refine ⟨?_, ⟨ta, ts, ?_, hAta, hSts⟩, ?_⟩
  · rw [leaf_signature_names]
    exact List.Nodup.append hinvF.nodupA hinvF.nodupS
      (fun a ha has => hinvF.disj a ha has)
  · rw [leaf_signature_names, hta, hts]
    simp
  · have hstep : ∀ (m : String) (nd : Node D) (cs : List String),
        m ∈ (visitGo t (signature_fuel t t.base_names) t.base_names
          ⟨base_scalar_names t t.base_names, [], base_scalar_names t t.base_names⟩).visited →
        t.nodes.lookup m = some nd → nd.children = some cs → ∀ c ∈ cs,
        c ∈ (visitGo t (signature_fuel t t.base_names) t.base_names
          ⟨base_scalar_names t t.base_names, [], base_scalar_names t t.base_names⟩).visited := by
      intro m nd cs hmv hlm hch
      by_cases hm0 : m ∈ base_scalar_names t t.base_names
      · exfalso
        have hpred := (List.mem_filter.mp hm0).2
        rw [hlm] at hpred
        have hty : nd.type = NodeType.scalar := by simpa using hpred
        have hnone := hscalarleaf m nd hlm hty
        rw [hnone] at hch
        cases hch
      · exact (hclosed m hmv hm0).2.2 nd cs hlm hch
    intro n hr hleaf
    have hnv : n ∈ (visitGo t (signature_fuel t t.base_names) t.base_names
        ⟨base_scalar_names t t.base_names, [], base_scalar_names t t.base_names⟩).visited :=
      reachable_visited_aux t t.base_names _ hvis hstep n hr
    rw [leaf_signature_names]
    by_cases hn0 : n ∈ base_scalar_names t t.base_names
    · refine List.mem_append_right _ ?_
      rw [hts]
      exact List.mem_append_left _ hn0
    · have hcl := hclosed n hnv hn0
      rcases hleaf with hnone | ⟨nd, hnd, hch⟩
      · exact List.mem_append_left _ (hcl.1 hnone)
      · obtain ⟨hs, ha⟩ := hcl.2.1 nd hnd hch
        by_cases hty : nd.type = NodeType.scalar
        · exact List.mem_append_right _ (hs hty)
        · exact List.mem_append_left _ (ha hty)

/-- A tree whose single base name is outside the node table (a temporary
array), for the C8 witness. -/
def extTree : TransformationTree Nat where
  nodes := []
  base_names := ["x"]

/-- Witness for C8: the duplicate-freeness of the signature of a concrete
tree, through the main theorem. -/
theorem C8_witness :
    extTree.base_names.Nodup ∧
    ((leaf_signature extTree extTree.base_names).map Prod.fst).Nodup :=
  ⟨by decide,
    (C8_leaf_signature extTree (by decide)
      (fun n nd hnd _ => Option.noConfusion hnd)).1⟩

end Transform

end Reikna
